import Mathlib

/-!
# LLST: native dispatch, root-chain walk, method compiler and symbol order

A shallow embedding of `include/native_method_pointer.h`,
`src/LLVMMemoryManager.cpp`, `src/MethodCompiler.cpp` and `src/TSymbol.cpp`,
followed by the properties established about them.

Conventions of the embedding:
* a `TObject*` is a machine word (`Word`); `0` is the null pointer, an odd word is
  a tagged small integer, any other word is a heap reference;
* a C++ exception is an `Except.error`; behaviour the C++ standard leaves undefined
  (reading past the end of an array, popping an empty stack) is a separate failure;
* effects that a property talks about (reading an argument slot, calling the bound
  routine, calling `moveObject`) are recorded in an explicit event list or state.
-/

namespace LLST

/-- A machine word holding a `TObject*` (or a tagged small integer). -/
abbrev Word := Nat

/-- A heap type named as a template argument (`T` in `T*`). -/
abbrev Ty := Nat

/-! ## `native_method_pointer.h` -/

namespace impl

/-- The member template `seq<S...>::add<N>::type`, that is `seq<S + N...>`. -/
def seq.add (S : List Nat) (N : Nat) : List Nat :=
  S.map (fun s => s + N)

/-- The overloads `max(seq<N, S...>)` and `max(seq<>)`. -/
def max : List Nat → Nat
  | [] => 0
  | N :: S => Nat.max N (max S)

/-- The template `gens<N, S...>`: `gens<N, S...>` derives from `gens<N-1, N-1, S...>` and
`gens<0, S...>::type` is `seq<S...>`. -/
def gens : Nat → List Nat → List Nat
  | 0, S => S
  | N + 1, S => gens N (N :: S)

end impl

/-- A declared parameter type of a native routine: a pointer `T*` or a `TInteger`.
The engine handle `VM*` is the pointer type whose pointee is the `VM` template
argument. -/
inductive ArgTy
  | ptr (T : Ty)
  | integer
  deriving DecidableEq, Repr

/-- A converted argument, as handed to the native routine. -/
inductive Arg
  | vm
  | ptr (T : Ty) (p : Word)
  | integer (value : Word)
  deriving DecidableEq, Repr

/-- What a dispatch can end with instead of a result. -/
inductive Failure
  | NativeMethodInvocationError (what : String)
  | outOfBounds
  deriving DecidableEq, Repr

/-- The observable steps of a dispatch. -/
inductive Event
  | getField (index : Nat)
  | invoke (self : Word) (args : List Arg)
  deriving DecidableEq, Repr

/-- The parts of the engine a dispatch uses and that are declared outside the
header: the `VM` template argument, `vm->checked_cast<T*>` (an `Except.error what`
stands for a thrown `std::bad_cast` with that `what()`), and `globals.nilObject`. -/
structure Engine where
  VM : Ty
  checked_cast : Ty → Word → Except String Word
  nilObject : Word

/-- Modelled from the spec: the conversion from `TObject*` to `TInteger` declared in
`types.h`, which is not among the sources. A small-integer parameter requires the slot
to hold a tagged small integer (reserved low bit set); otherwise the conversion throws
`std::bad_cast`. -/
def TInteger.ofObject (value : Word) : Except String Word :=
  if value % 2 = 1 then Except.ok value else Except.error "std::bad_cast"

/-- The accessor `TObjectArray::getField`; reading past the array is undefined. -/
def getField (args : List Word) (index : Nat) : Option Word :=
  args[index]?

namespace impl

/-- The three specializations of `ArgumentExtractor<VM, Arg, Index>::operator()`:
`VM*` at index 0 yields the engine handle without touching `args`; any other pointer
goes through `checked_cast`; `TInteger` converts the slot and reports a failed
conversion as "SmallInteger expected". -/
def ArgumentExtractor (vm : Engine) (args : List Word) (A : ArgTy) (Index : Nat) :
    List Event × Except Failure Arg :=
  match A with
  | ArgTy.ptr T =>
    if T = vm.VM ∧ Index = 0 then ([], Except.ok Arg.vm)
    else
      match getField args Index with
      | none => ([Event.getField Index], Except.error Failure.outOfBounds)
      | some object =>
        match vm.checked_cast T object with
        | Except.ok p => ([Event.getField Index], Except.ok (Arg.ptr T p))
        | Except.error what =>
          ([Event.getField Index], Except.error (Failure.NativeMethodInvocationError what))
  | ArgTy.integer =>
    match getField args Index with
    | none => ([Event.getField Index], Except.error Failure.outOfBounds)
    | some object =>
      match TInteger.ofObject object with
      | Except.ok value => ([Event.getField Index], Except.ok (Arg.integer value))
      | Except.error _ =>
        ([Event.getField Index],
          Except.error (Failure.NativeMethodInvocationError "SmallInteger expected"))

/-- The pack expansion `ArgumentExtractor<VM, Args, Indexes>()(vm, args)...`: one
extractor per declared parameter, paired with its index. C++ leaves the order in which
the extractors run unspecified; they are run here from left to right, and the first one
that throws ends the dispatch. When several extractors fail, which error is reported and
which slots were read before it depend on that order; the properties below name the
message of an extractor only for dispatches in which no other extractor fails. -/
def extractAll (vm : Engine) (args : List Word) :
    List (ArgTy × Nat) → List Event × Except Failure (List Arg)
  | [] => ([], Except.ok [])
  | (A, Index) :: rest =>
    match ArgumentExtractor vm args A Index with
    | (ev, Except.error e) => (ev, Except.error e)
    | (ev, Except.ok a) =>
      match extractAll vm args rest with
      | (ev2, Except.error e) => (ev ++ ev2, Except.error e)
      | (ev2, Except.ok as) => (ev ++ ev2, Except.ok (a :: as))

/-- The template `VMArgumentAnalyzer<VM, Args...>::Indexes`: the specialization for a
leading `VM*` gives `gens<sizeof...(rest) + 1>`, the primary template gives
`gens<sizeof...(Args)>` shifted by one. -/
def VMArgumentAnalyzer (VM : Ty) (Args : List ArgTy) : List Nat :=
  match Args with
  | ArgTy.ptr T :: rest =>
    if T = VM then gens (rest.length + 1) [] else seq.add (gens Args.length []) 1
  | _ => seq.add (gens Args.length []) 1

end impl

/-- The bound member routine `R (T::*)(Args...)`: either its return type converts to
`TObject*`, or it returns `void`. -/
inductive Fptr
  | returning (method : Word → List Arg → Word)
  | void

namespace impl

/-- The two specializations of `Invoker<R>::operator()`: call the routine on `self`;
pass its result through, or return `globals.nilObject` for a `void` routine. -/
def Invoker (vm : Engine) (method : Fptr) (self : Word) (as : List Arg) :
    List Event × Word :=
  match method with
  | Fptr.returning m => ([Event.invoke self as], m self as)
  | Fptr.void => ([Event.invoke self as], vm.nilObject)

end impl

/-- The class template `TNativeMethodPointer<VM, T, R, Args...>` with its member
`m_method`. -/
structure TNativeMethodPointer where
  T : Ty
  Args : List ArgTy
  m_method : Fptr

/-- The private member `TNativeMethodPointer::call`. -/
def TNativeMethodPointer.call (self : TNativeMethodPointer) (vm : Engine)
    (args : List Word) (Indexes : List Nat) : List Event × Except Failure Word :=
  match getField args 0 with
  | none => ([Event.getField 0], Except.error Failure.outOfBounds)
  | some object =>
    match vm.checked_cast self.T object with
    | Except.error what =>
      ([Event.getField 0], Except.error (Failure.NativeMethodInvocationError what))
    | Except.ok receiver =>
      match impl.extractAll vm args (self.Args.zip Indexes) with
      | (ev, Except.error e) => (Event.getField 0 :: ev, Except.error e)
      | (ev, Except.ok as) =>
        (Event.getField 0 :: (ev ++ (impl.Invoker vm self.m_method receiver as).1),
          Except.ok (impl.Invoker vm self.m_method receiver as).2)

/-- The call operator `TNativeMethodPointer::operator()`. -/
def TNativeMethodPointer.operator (self : TNativeMethodPointer) (vm : Engine)
    (args : List Word) : List Event × Except Failure Word :=
  if args.length ≠ impl.max (impl.VMArgumentAnalyzer vm.VM self.Args) + 1 then
    ([], Except.error (Failure.NativeMethodInvocationError
      "Incorrect number of arguments passed to native method"))
  else
    self.call vm args (impl.VMArgumentAnalyzer vm.VM self.Args)

/-- The number of declared parameters other than a leading engine handle. -/
def declaredArity (VM : Ty) (Args : List ArgTy) : Nat :=
  match Args with
  | ArgTy.ptr T :: rest => if T = VM then rest.length else Args.length
  | _ => Args.length

/-- The signature starts with the engine handle `VM*`. -/
def leadingVM (VM : Ty) (Args : List ArgTy) : Bool :=
  match Args with
  | ArgTy.ptr T :: _ => decide (T = VM)
  | _ => false

/-- The argument `a` is the slot content `object` converted to the declared parameter
type `A`, in the words of the specification: a heap-reference parameter `T*` is the
strict cast of the slot to `T*`; a small-integer parameter is the slot itself, which
has to hold a tagged small integer (reserved low bit set). -/
def convertedFrom (vm : Engine) (A : ArgTy) (object : Word) (a : Arg) : Prop :=
  match A with
  | ArgTy.ptr T => ∃ p, vm.checked_cast T object = Except.ok p ∧ a = Arg.ptr T p
  | ArgTy.integer => object % 2 = 1 ∧ a = Arg.integer object

/-- The event is a call of the bound routine. -/
def Event.isInvoke : Event → Bool
  | Event.invoke _ _ => true
  | Event.getField _ => false

/-- A dispatch invoked the bound routine. -/
def invoked (ev : List Event) : Bool :=
  ev.any Event.isInvoke

/-- An engine for worked examples: the VM type is `0`; a heap object lives at an even
non-zero address and its class is the address divided by 100. -/
def sampleEngine : Engine where
  VM := 0
  checked_cast := fun T object =>
    if object % 2 = 0 ∧ object ≠ 0 ∧ object / 100 = T then Except.ok object
    else Except.error "bad cast"
  nilObject := 2

/-! ## `LLVMMemoryManager.cpp` -/

/-- How a run of the embedding ends: it completes with a value, the process is
terminated by `exit(status)`, it runs into behaviour C++ leaves undefined, or the step
budget given to the embedding ran out before the run ended. -/
inductive Outcome (α : Type)
  | done (value : α)
  | exited (status : Nat)
  | undefined
  | outOfFuel
  deriving DecidableEq, Repr

/-- The frame map a stack entry points to; only `numRoots` (an `int32_t`) is used. -/
structure FrameMap where
  numRoots : Int
  deriving DecidableEq, Repr

/-- A descriptor `TStackEntry` of the root chain: the address of the next entry (`0` for
the null pointer), the frame map, and the root slots of the frame. -/
structure TStackEntry where
  next : Nat
  map : FrameMap
  roots : List Word
  deriving DecidableEq, Repr

/-- The memory that holds the stack entries, by address. -/
abbrev Frames := Nat → Option TStackEntry

/-- Store an entry at an address. -/
def Frames.write (frames : Frames) (address : Nat) (entry : TStackEntry) : Frames :=
  fun a => if a = address then some entry else frames a

/-- The part of the memory manager declared in `memory.h` and implemented outside the
sources: the state of the Baker collector, its `BakerMemoryManager::moveObjects` and its
`moveObject`, which returns the new address of the object it is given. The collector
state is kept apart from the memory of the native frames, which the collector reaches
only through the walk below. -/
structure Collector (GC : Type) where
  moveObjects : GC → GC
  moveObject : GC → Word → GC × Word

/-- The state `LLVMMemoryManager::moveObjects` works on: the collector, the global
`llvm_gc_root_chain`, and the memory of the native frames. -/
structure GCState (GC : Type) where
  gc : GC
  llvm_gc_root_chain : Nat
  frames : Frames

/-- The inner loop `for (index = 0, count = entry->map->numRoots; index < count; index++)`
with `remaining = count - index` iterations to go: read the slot, move a non-null
object, write the slot back. -/
def moveRootsLoop {GC : Type} (c : Collector GC) :
    Nat → Nat → GC → List Word → Option (GC × List Word)
  | 0, _, gc, roots => some (gc, roots)
  | remaining + 1, index, gc, roots =>
    match roots[index]? with
    | none => none
    | some object =>
      if object ≠ 0 then
        moveRootsLoop c remaining (index + 1) (c.moveObject gc object).1
          (roots.set index (c.moveObject gc object).2)
      else
        moveRootsLoop c remaining (index + 1) gc (roots.set index object)

/-- The outer loop `for (entry = llvm_gc_root_chain; entry != 0; entry = entry->next)`. -/
def walkChain {GC : Type} (c : Collector GC) :
    Nat → GC → Frames → Nat → Outcome (GC × Frames)
  | 0, _, _, _ => Outcome.outOfFuel
  | fuel + 1, gc, frames, entry =>
    if entry = 0 then Outcome.done (gc, frames)
    else
      match frames entry with
      | none => Outcome.undefined
      | some e =>
        match moveRootsLoop c e.map.numRoots.toNat 0 gc e.roots with
        | none => Outcome.undefined
        | some (gc1, roots1) =>
          walkChain c fuel gc1 (frames.write entry { e with roots := roots1 }) e.next

/-- The method `LLVMMemoryManager::moveObjects`: first the collector's own
`moveObjects`, then the walk over the root chain. -/
def LLVMMemoryManager.moveObjects {GC : Type} (c : Collector GC) (fuel : Nat)
    (s : GCState GC) : Outcome (GCState GC) :=
  match walkChain c fuel (c.moveObjects s.gc) s.frames s.llvm_gc_root_chain with
  | Outcome.done (gc, frames) =>
    Outcome.done { gc := gc, llvm_gc_root_chain := s.llvm_gc_root_chain, frames := frames }
  | Outcome.exited status => Outcome.exited status
  | Outcome.undefined => Outcome.undefined
  | Outcome.outOfFuel => Outcome.outOfFuel

/-- The addresses `addrs` are the root chain that starts at `head`: each is a non-null
address of an entry whose `next` is the following one, and the last `next` is null. -/
def isChain (frames : Frames) : Nat → List Nat → Bool
  | head, [] => head == 0
  | head, a :: rest =>
    head == a && a != 0 &&
      match frames a with
      | none => false
      | some e => isChain frames e.next rest

/-- Every descriptor of the chain declares exactly the slots of its frame. -/
def wellFormed (frames : Frames) (addrs : List Nat) : Prop :=
  ∀ a ∈ addrs, ∀ e, frames a = some e → e.map.numRoots = (e.roots.length : Int)

/-- What the walk is specified to do with one slot: a null slot stays null, any other
value is replaced by `moveObject` of it. -/
def moveSlot {GC : Type} (c : Collector GC) (gc : GC) (v : Word) : GC × Word :=
  if v = 0 then (gc, 0) else c.moveObject gc v

/-- Apply a state-passing function to every element of a list, in order. -/
def threadMap {σ : Type} (f : σ → Word → σ × Word) : σ → List Word → σ × List Word
  | s, [] => (s, [])
  | s, v :: vs => ((threadMap f (f s v).1 vs).1, (f s v).2 :: (threadMap f (f s v).1 vs).2)

/-- What the walk is specified to do with a chain, given as the list of its descriptors
from head to tail: every slot of every descriptor is handled once, in order. -/
def moveChain {GC : Type} (c : Collector GC) : GC → List TStackEntry → GC × List TStackEntry
  | gc, [] => (gc, [])
  | gc, e :: es =>
    ((moveChain c (threadMap (moveSlot c) gc e.roots).1 es).1,
      { e with roots := (threadMap (moveSlot c) gc e.roots).2 } ::
        (moveChain c (threadMap (moveSlot c) gc e.roots).1 es).2)

/-- A collector for worked examples: nothing moves, and the state is the list of the
words `moveObject` was called with. -/
def loggingCollector : Collector (List Word) where
  moveObjects := fun log => log
  moveObject := fun log v => (log ++ [v], v)

/-- A chain of two frames for worked examples: the entry at address 8 has the slots
`[7, 0, 40]` (a tagged small integer, null, a heap reference) and is followed by the
entry at address 16 with the slots `[40]`. -/
def sampleFrames : Frames :=
  fun a =>
    if a = 8 then some { next := 16, map := { numRoots := 3 }, roots := [7, 0, 40] }
    else if a = 16 then some { next := 0, map := { numRoots := 1 }, roots := [40] }
    else none

namespace Baker

/-- Modelled from the spec: the state of the copying collector of `memory.h`, which is
not among the sources. The active region maps an address to the field slots of the
object there; a forwarding marker maps the old address of a copied object to its new
one; copies are bump-allocated in the inactive region at `free`; `roots` are the
explicit roots. -/
structure Heap where
  objects : List (Word × List Word)
  forward : List (Word × Word)
  inactive : List (Word × List Word)
  free : Word
  roots : List Word
  deriving DecidableEq, Repr

/-- Modelled from the spec: the field slots of the object at an address of the active
region. -/
def Heap.fields (h : Heap) (v : Word) : List Word :=
  (h.objects.lookup v).getD []

/-- Modelled from the spec: reserve room for a copy of the object at `v` at the bump
pointer of the inactive region and leave a forwarding marker at its old location. -/
def Heap.reserve (h : Heap) (v : Word) : Heap :=
  { h with
    forward := (v, h.free) :: h.forward
    free := h.free + 2 * ((h.fields v).length + 1) }

/-- Modelled from the spec: write the copy at address `a`, with its rewritten fields,
and return its address. -/
def Heap.store (a : Word) (r : Heap × List Word) : Heap × Word :=
  ({ r.1 with inactive := (a, r.2) :: r.1.inactive }, a)

/-- Modelled from the spec: the copy/forward procedure `moveObject`, which is not among
the sources. A tagged small integer or null has no object behind it and is returned as
it is. An object that carries a forwarding marker is not copied again: its new address
is returned. Any other object is copied to the inactive region, a forwarding marker is
left at its old location, and the references held in its fields are processed the same
way, to the given nesting depth. -/
def moveObject : Nat → Heap → Word → Heap × Word
  | 0, h, v => (h, v)
  | depth + 1, h, v =>
    if v % 2 = 1 ∨ v = 0 then (h, v)
    else
      match h.forward.lookup v with
      | some a => (h, a)
      | none => Heap.store h.free (threadMap (moveObject depth) (h.reserve v) (h.fields v))

/-- Modelled from the spec: the collector of `memory.h` as the walk sees it. Its own
`moveObjects` processes every explicit root and rewrites it; the nesting depth given to
`moveObject` is the number of objects plus one. -/
def collector : Collector Heap where
  moveObjects := fun h =>
    { (threadMap (moveObject (h.objects.length + 1)) h h.roots).1 with
      roots := (threadMap (moveObject (h.objects.length + 1)) h h.roots).2 }
  moveObject := fun h v => moveObject (h.objects.length + 1) h v

/-- The object at old address `v` carries a forwarding marker to `a`. -/
def Forwarded (h : Heap) (v a : Word) : Prop :=
  h.forward.lookup v = some a

/-- A heap for worked examples: the object at 40 refers to the object at 60 and holds
the small integer 3; the object at 60 refers back to 40. -/
def sampleHeap : Heap where
  objects := [(40, [60, 7]), (60, [40])]
  forward := []
  inactive := []
  free := 1000
  roots := [60]

end Baker

/-! ## `MethodCompiler.cpp` -/

/-- The opcode enumerators of `SmalltalkVM` that `compileMethod` names. They are
declared in `vm.h`, outside the sources, so their numbering is left open; the nine
labels of the `switch` are pairwise distinct, as C++ requires of case labels. -/
structure SmalltalkVM where
  opExtended : Nat
  opPushInstance : Nat
  opPushArgument : Nat
  opPushTemporary : Nat
  opPushLiteral : Nat
  opPushConstant : Nat
  opPushBlock : Nat
  opAssignTemporary : Nat
  opAssignInstance : Nat
  opMarkArguments : Nat
  distinct : [opPushInstance, opPushArgument, opPushTemporary, opPushLiteral,
    opPushConstant, opPushBlock, opAssignTemporary, opAssignInstance,
    opMarkArguments].Nodup

/-- A byte of a `TByteObject` (`uint8_t`). -/
abbrev Byte := Fin 256

/-- The decoded instruction `TInstruction`. The type is declared outside the sources;
its fields `high` and `low` are taken to be bytes (`uint8_t`), which is what the
decoder stores in them. -/
structure TInstruction where
  high : Nat
  low : Nat
  deriving DecidableEq, Repr

/-- An `llvm::Value*` handle, kept symbolically: the null pointer, the context parameter
of the function, a 32-bit constant, and the values of the instructions the builder
creates. -/
inductive Value
  | null
  | contextObject
  | getInt32 (n : Nat)
  | GEP (pointer : Value) (indices : List Nat)
  | Load (pointer : Value)
  | InsertValue (aggregate : Value) (value : Value) (index : Nat)
  deriving DecidableEq, Repr

/-- An instruction appended to the basic block by the builder. -/
inductive Instruction
  | GEP (pointer : Value) (indices : List Nat)
  | Load (pointer : Value)
  | Store (value : Value) (pointer : Value)
  | InsertValue (aggregate : Value) (value : Value) (index : Nat)
  deriving DecidableEq, Repr

/-- A message written to `stderr`. -/
inductive Diagnostic
  | unknownPushConstant (constant : Nat)
  | invalidOpcode (opcode : Nat) (offset : Nat)
  deriving DecidableEq, Repr

/-- The method being compiled, `TMethod`: the names that make up the function name and
the bytecodes. -/
structure TMethod where
  klass : String
  name : String
  byteCodes : List Byte
  deriving DecidableEq, Repr

/-- The compilation context `TJITContext`: the function being built (by name), the
addresses set up by the preamble, and the compile-time operand stack, top first. -/
structure TJITContext where
  function : String
  literals : Value
  arguments : Value
  temporaries : Value
  self : Value
  valueStack : List Value
  deriving DecidableEq, Repr

/-- Modelled from the spec: `TJITContext::pushValue` of `jit.h`, which is not among the
sources; push appends a value handle to the compile-time stack. -/
def TJITContext.pushValue (jit : TJITContext) (value : Value) : TJITContext :=
  { jit with valueStack := value :: jit.valueStack }

/-- Modelled from the spec: `TJITContext::popValue` of `jit.h`, which is not among the
sources; pop removes and returns the most recently pushed handle. Nothing is specified
for an empty stack, which yields no result here. -/
def TJITContext.popValue (jit : TJITContext) : Option (Value × TJITContext) :=
  match jit.valueStack with
  | [] => none
  | value :: rest => some (value, { jit with valueStack := rest })

/-- Modelled from the spec: the macro `newInteger` of `types.h`, which is not among the
sources; a tagged small integer carries its value above a reserved low bit that is
set. -/
def newInteger (value : Nat) : Nat :=
  (value <<< 1) ||| 1

/-- The local state of `compileMethod`: the context, the instructions the builder has
appended to the entry block, the byte pointer, and what was written to `stderr`. -/
structure Compilation where
  jitContext : TJITContext
  builder : List Instruction
  bytePointer : Nat
  stderr : List Diagnostic
  deriving DecidableEq, Repr

/-- The call `builder.CreateGEP(pointer, indices)`. -/
def Compilation.CreateGEP (st : Compilation) (pointer : Value) (indices : List Nat) :
    Value × Compilation :=
  (Value.GEP pointer indices,
    { st with builder := st.builder ++ [Instruction.GEP pointer indices] })

/-- The call `builder.CreateLoad(pointer)`. -/
def Compilation.CreateLoad (st : Compilation) (pointer : Value) : Value × Compilation :=
  (Value.Load pointer, { st with builder := st.builder ++ [Instruction.Load pointer] })

/-- The call `builder.CreateStore(value, pointer)`. -/
def Compilation.CreateStore (st : Compilation) (value pointer : Value) : Compilation :=
  { st with builder := st.builder ++ [Instruction.Store value pointer] }

/-- The call `builder.CreateInsertValue(aggregate, value, index)`. -/
def Compilation.CreateInsertValue (st : Compilation) (aggregate value : Value)
    (index : Nat) : Value × Compilation :=
  (Value.InsertValue aggregate value index,
    { st with builder := st.builder ++ [Instruction.InsertValue aggregate value index] })

/-- The call `jitContext.pushValue(value)` on the state. -/
def Compilation.pushValue (st : Compilation) (value : Value) : Compilation :=
  { st with jitContext := st.jitContext.pushValue value }

/-- The call `jitContext.popValue()` on the state. -/
def Compilation.popValue (st : Compilation) : Option (Value × Compilation) :=
  match st.jitContext.popValue with
  | none => none
  | some (value, jit) => some (value, { st with jitContext := jit })

/-- The function name built by `MethodCompiler::createFunction`. -/
def createFunction (method : TMethod) : String :=
  method.klass ++ ">>" ++ method.name

/-- The method `MethodCompiler::writePreamble`, on the state right after the entry block
was created. -/
def writePreamble (function : String) : Compilation :=
  { jitContext :=
      { function := function
        literals := Value.GEP (Value.GEP Value.contextObject [1]) [3]
        arguments := Value.GEP Value.contextObject [2, 0, 2, 0]
        temporaries := Value.GEP Value.contextObject [3, 0, 2, 0]
        self := Value.GEP (Value.GEP Value.contextObject [2, 0, 2, 0]) [0]
        valueStack := [] }
    builder :=
      [Instruction.GEP Value.contextObject [1],
        Instruction.GEP (Value.GEP Value.contextObject [1]) [3],
        Instruction.GEP Value.contextObject [2, 0, 2, 0],
        Instruction.GEP Value.contextObject [3, 0, 2, 0],
        Instruction.GEP (Value.GEP Value.contextObject [2, 0, 2, 0]) [0]]
    bytePointer := 0
    stderr := [] }

/-- The decoding at the head of the loop body: the byte is split into `high` and `low`;
when `high` is `opExtended`, `low` becomes the opcode and the next byte the operand.
Returns the instruction and the advanced byte pointer; reading past the bytecodes is
undefined and yields no result. -/
def decode (vm : SmalltalkVM) (byteCodes : List Byte) (bytePointer : Nat) :
    Option (TInstruction × Nat) :=
  match byteCodes[bytePointer]? with
  | none => none
  | some byte =>
    let high := byte.val
    let low := high &&& 0x0F
    let high := high >>> 4
    if high = vm.opExtended then
      match byteCodes[bytePointer + 1]? with
      | none => none
      | some operand => some ({ high := low, low := operand.val }, bytePointer + 2)
    else
      some ({ high := high, low := low }, bytePointer + 1)

/-- The loop `while (index > 0) builder.CreateInsertValue(arguments, popValue(), index);`
of the `opMarkArguments` case, where `arguments` is the null handle. -/
def markArgumentsLoop : Nat → Nat → Compilation → Outcome Compilation
  | 0, _, _ => Outcome.outOfFuel
  | fuel + 1, index, st =>
    if index > 0 then
      match st.popValue with
      | none => Outcome.undefined
      | some (value, st1) =>
        markArgumentsLoop fuel index (st1.CreateInsertValue Value.null value index).2
    else Outcome.done st

/-- The `switch (instruction.high)` of `compileMethod`, one case per opcode. The case
`opPushBlock` calls `compileBlock`, whose body is empty: flowing off its end is
undefined. -/
def compileInstruction (vm : SmalltalkVM) (fuel : Nat) (instruction : TInstruction)
    (st : Compilation) : Outcome Compilation :=
  if instruction.high = vm.opPushInstance then
    Outcome.done
      ((((st.CreateGEP st.jitContext.self [instruction.low]).2.CreateLoad
        (Value.GEP st.jitContext.self [instruction.low])).2).pushValue
          (Value.Load (Value.GEP st.jitContext.self [instruction.low])))
  else if instruction.high = vm.opPushArgument then
    Outcome.done
      ((((st.CreateGEP st.jitContext.arguments [instruction.low]).2.CreateLoad
        (Value.GEP st.jitContext.arguments [instruction.low])).2).pushValue
          (Value.Load (Value.GEP st.jitContext.arguments [instruction.low])))
  else if instruction.high = vm.opPushTemporary then
    Outcome.done
      ((((st.CreateGEP st.jitContext.temporaries [instruction.low]).2.CreateLoad
        (Value.GEP st.jitContext.temporaries [instruction.low])).2).pushValue
          (Value.Load (Value.GEP st.jitContext.temporaries [instruction.low])))
  else if instruction.high = vm.opPushLiteral then
    Outcome.done
      ((((st.CreateGEP st.jitContext.literals [instruction.low]).2.CreateLoad
        (Value.GEP st.jitContext.literals [instruction.low])).2).pushValue
          (Value.Load (Value.GEP st.jitContext.literals [instruction.low])))
  else if instruction.high = vm.opPushConstant then
    if instruction.low ≤ 9 then
      Outcome.done (st.pushValue (Value.getInt32 (newInteger instruction.low)))
    else
      Outcome.done
        ({ st with stderr := st.stderr ++ [Diagnostic.unknownPushConstant instruction.low] }.pushValue
          Value.null)
  else if instruction.high = vm.opPushBlock then
    Outcome.undefined
  else if instruction.high = vm.opAssignTemporary then
    match st.popValue with
    | none => Outcome.undefined
    | some (value, st1) =>
      Outcome.done
        ((st1.CreateGEP st1.jitContext.temporaries [instruction.low]).2.CreateStore value
          (Value.GEP st1.jitContext.temporaries [instruction.low]))
  else if instruction.high = vm.opAssignInstance then
    match st.popValue with
    | none => Outcome.undefined
    | some (value, st1) =>
      Outcome.done
        ((st1.CreateGEP st1.jitContext.self [instruction.low]).2.CreateStore value
          (Value.GEP st1.jitContext.self [instruction.low]))
  else if instruction.high = vm.opMarkArguments then
    match markArgumentsLoop fuel instruction.low st with
    | Outcome.done st1 => Outcome.done (st1.pushValue Value.null)
    | Outcome.exited status => Outcome.exited status
    | Outcome.undefined => Outcome.undefined
    | Outcome.outOfFuel => Outcome.outOfFuel
  else
    Outcome.exited 1

/-- The loop `while (bytePointer < byteCount)` of `compileMethod`: decode the pending
instruction, then write its code. -/
def compileLoop (vm : SmalltalkVM) (byteCodes : List Byte) :
    Nat → Compilation → Outcome Compilation
  | 0, _ => Outcome.outOfFuel
  | fuel + 1, st =>
    if st.bytePointer < byteCodes.length then
      match decode vm byteCodes st.bytePointer with
      | none => Outcome.undefined
      | some (instruction, next) =>
        match compileInstruction vm fuel instruction { st with bytePointer := next } with
        | Outcome.done st1 => compileLoop vm byteCodes fuel st1
        | Outcome.exited status => Outcome.exited status
        | Outcome.undefined => Outcome.undefined
        | Outcome.outOfFuel => Outcome.outOfFuel
    else Outcome.done st

/-- The method `MethodCompiler::compileMethod`: create the function, write the preamble,
run the loop; the state it completes with holds the function it returns. -/
def compileMethod (vm : SmalltalkVM) (fuel : Nat) (method : TMethod) : Outcome Compilation :=
  compileLoop vm method.byteCodes fuel (writePreamble (createFunction method))

/-- An opcode numbering for worked examples. -/
def sampleVM : SmalltalkVM where
  opExtended := 0
  opPushInstance := 1
  opPushArgument := 2
  opPushTemporary := 3
  opPushLiteral := 4
  opPushConstant := 5
  opAssignInstance := 6
  opAssignTemporary := 7
  opMarkArguments := 8
  opPushBlock := 12
  distinct := by decide

/-- The method of the end-to-end example, up to its argument array: push-argument 0,
push-literal 0, mark-arguments 2. -/
def sampleMethod : TMethod where
  klass := "Object"
  name := "example"
  byteCodes := [0x20, 0x40, 0x82]

/-- The case labels of the `switch (instruction.high)` in `compileMethod`; every other
opcode reaches the `default` label. -/
def SmalltalkVM.handled (vm : SmalltalkVM) : List Nat :=
  [vm.opPushInstance, vm.opPushArgument, vm.opPushTemporary, vm.opPushLiteral,
    vm.opPushConstant, vm.opPushBlock, vm.opAssignTemporary, vm.opAssignInstance,
    vm.opMarkArguments]

/-- The bytecode indices the decoding at the head of the loop body reads: the byte at
`bytePointer`, and the byte after it when the high nibble is `opExtended`. -/
def decodeReads (vm : SmalltalkVM) (byteCodes : List Byte) (bytePointer : Nat) : List Nat :=
  match byteCodes[bytePointer]? with
  | none => [bytePointer]
  | some byte =>
    if (byte.val >>> 4) = vm.opExtended then [bytePointer, bytePointer + 1]
    else [bytePointer]

/-- The address a pointer handle denotes at run time: a GEP with a single index steps
that many slots of `slot` bytes from the address of its base pointer; any other handle
has the address `root` assigns to it. -/
def Value.address (slot : Nat) (root : Value → Nat) : Value → Nat
  | Value.GEP pointer [index] => Value.address slot root pointer + index * slot
  | Value.GEP pointer [] => root (Value.GEP pointer [])
  | Value.GEP pointer (i :: j :: rest) => root (Value.GEP pointer (i :: j :: rest))
  | Value.null => root Value.null
  | Value.contextObject => root Value.contextObject
  | Value.getInt32 n => root (Value.getInt32 n)
  | Value.Load pointer => root (Value.Load pointer)
  | Value.InsertValue aggregate value index =>
    root (Value.InsertValue aggregate value index)

/-! ## `TSymbol.cpp` -/

/-- A symbol `TSymbol`: the bytes `getBytes()` points to, `getSize()` of them. -/
structure TSymbol where
  bytes : List Byte
  deriving DecidableEq, Repr

/-- The accessor `TSymbol::getSize`. -/
def TSymbol.getSize (symbol : TSymbol) : Nat :=
  symbol.bytes.length

/-- The value of a `uint8_t` element once converted to `int` for a comparison. -/
def uint8Value (b : Byte) : Int :=
  (b.val : Int)

/-- The value of a `char` element once converted to `int` for a comparison, `char`
being a signed 8-bit type: bytes from 128 on are negative. -/
def charValue (b : Byte) : Int :=
  if b.val < 128 then (b.val : Int) else (b.val : Int) - 256

/-- The standard algorithm `std::lexicographical_compare` on two ranges, given as the
values of their elements: walk both ranges while neither is exhausted, return `true` at
the first position where the left element is less, `false` where the right one is less;
when a range is exhausted the result is whether the left one is and the right one is
not. -/
def lexicographical_compare : List Int → List Int → Bool
  | [], [] => false
  | [], _ :: _ => true
  | _ :: _, [] => false
  | a :: as, b :: bs =>
    if a < b then true
    else if b < a then false
    else lexicographical_compare as bs

/-- The standard function `std::strlen` on the memory a `const char*` points to: the
number of bytes before the first NUL. Without a NUL the call is undefined and yields no
result. -/
def strlen : List Byte → Option Nat
  | [] => none
  | b :: rest => if b = 0 then some 0 else (strlen rest).map (fun n => n + 1)

/-- The overload `TCompareFunctor::operator()(const TSymbol*, const TSymbol*)`. -/
def TSymbol.TCompareFunctor.operator (left right : TSymbol) : Bool :=
  lexicographical_compare (left.bytes.map uint8Value) (right.bytes.map uint8Value)

/-- The overload `TCompareFunctor::operator()(const TSymbol*, const char*)`; the C
string is given by the memory `right` points to. -/
def TSymbol.TCompareFunctor.operatorSymbolString (left : TSymbol) (right : List Byte) :
    Option Bool :=
  match strlen right with
  | none => none
  | some n =>
    some (lexicographical_compare (left.bytes.map uint8Value)
      ((right.take n).map charValue))

/-- The overload `TCompareFunctor::operator()(const char*, const TSymbol*)`; the C
string is given by the memory `left` points to. -/
def TSymbol.TCompareFunctor.operatorStringSymbol (left : List Byte) (right : TSymbol) :
    Option Bool :=
  match strlen left with
  | none => none
  | some n =>
    some (lexicographical_compare ((left.take n).map charValue)
      (right.bytes.map uint8Value))

/-- The symbol whose bytes are those of a C string, up to its NUL. -/
def TSymbol.ofString (c : List Byte) : Option TSymbol :=
  (strlen c).map (fun n => { bytes := c.take n })

/-- The strict lexicographic order on byte sequences in the words of the specification:
a proper prefix comes before its extension, and otherwise the first position where the
sequences differ decides, bytes compared as unsigned numbers. -/
def lexLess (a b : List Byte) : Prop :=
  (∃ t, t ≠ [] ∧ b = a ++ t) ∨
  ∃ common x y ta tb, a = common ++ x :: ta ∧ b = common ++ y :: tb ∧ x.val < y.val

end LLST

/-! # Properties -/

namespace LLST

/-! ## Index sequences -/

theorem impl.gens_eq (N : Nat) (S : List Nat) : impl.gens N S = List.range N ++ S := by
  induction N generalizing S with
  | zero => simp [impl.gens]
  | succ n ih => simp [impl.gens, ih, List.range_succ]

theorem impl.le_max_of_mem {S : List Nat} {i : Nat} (h : i ∈ S) : i ≤ impl.max S := by
  induction S with
  | nil => simp at h
  | cons a S ih =>
    simp only [impl.max]
    rcases List.mem_cons.mp h with h | h
    · subst h; exact Nat.le_max_left _ _
    · exact le_trans (ih h) (Nat.le_max_right _ _)

theorem impl.max_append_singleton (S : List Nat) (n : Nat) :
    impl.max (S ++ [n]) = Nat.max (impl.max S) n := by
  induction S with
  | nil => simp [impl.max]
  | cons a S ih =>
    show Nat.max a (impl.max (S ++ [n])) = Nat.max (Nat.max a (impl.max S)) n
    rw [ih]
    simp only [Nat.max_def]
    split_ifs <;> omega

theorem impl.max_range_succ (n : Nat) : impl.max (List.range (n + 1)) = n := by
  induction n with
  | zero => decide
  | succ n ih =>
    rw [List.range_succ, impl.max_append_singleton, ih]
    exact Nat.max_eq_right (Nat.le_succ n)

theorem impl.max_shifted_range (n : Nat) :
    impl.max (impl.seq.add (List.range n) 1) = n := by
  induction n with
  | zero => decide
  | succ n ih =>
    unfold impl.seq.add at ih ⊢
    rw [List.range_succ, List.map_append, List.map_singleton,
      impl.max_append_singleton, ih]
    exact Nat.max_eq_right (Nat.le_succ n)

theorem impl.max_Indexes (VM : Ty) (Args : List ArgTy) :
    impl.max (impl.VMArgumentAnalyzer VM Args) = declaredArity VM Args := by
  unfold impl.VMArgumentAnalyzer declaredArity
  split
  · split
    · rw [impl.gens_eq, List.append_nil, impl.max_range_succ]
    · rw [impl.gens_eq, List.append_nil, impl.max_shifted_range]
  · rw [impl.gens_eq, List.append_nil, impl.max_shifted_range]

/-! ## Native dispatch -/

theorem impl.ArgumentExtractor_not_invoked (vm : Engine) (args : List Word) (A : ArgTy)
    (Index : Nat) : invoked (impl.ArgumentExtractor vm args A Index).1 = false := by
  unfold impl.ArgumentExtractor
  cases A with
  | ptr T =>
    simp only
    split
    · rfl
    · cases getField args Index with
      | none => rfl
      | some object =>
        simp only
        cases vm.checked_cast T object <;> rfl
  | integer =>
    simp only
    cases getField args Index with
    | none => rfl
    | some object =>
      simp only
      cases TInteger.ofObject object <;> rfl

theorem invoked_append (a b : List Event) : invoked (a ++ b) = (invoked a || invoked b) := by
  simp [invoked]

theorem impl.extractAll_cons_snd (vm : Engine) (args : List Word) (A : ArgTy) (Index : Nat)
    (rest : List (ArgTy × Nat)) :
    (impl.extractAll vm args ((A, Index) :: rest)).2 =
      match (impl.ArgumentExtractor vm args A Index).2 with
      | Except.error e => Except.error e
      | Except.ok a =>
        match (impl.extractAll vm args rest).2 with
        | Except.error e => Except.error e
        | Except.ok as => Except.ok (a :: as) := by
  rw [impl.extractAll]
  rcases impl.ArgumentExtractor vm args A Index with ⟨ev, r⟩
  cases r with
  | error e => rfl
  | ok a =>
    simp only
    rcases impl.extractAll vm args rest with ⟨ev2, r2⟩
    cases r2 <;> rfl

theorem impl.extractAll_cons_fst (vm : Engine) (args : List Word) (A : ArgTy) (Index : Nat)
    (rest : List (ArgTy × Nat)) :
    (impl.extractAll vm args ((A, Index) :: rest)).1 =
      match (impl.ArgumentExtractor vm args A Index).2 with
      | Except.error _ => (impl.ArgumentExtractor vm args A Index).1
      | Except.ok _ =>
        (impl.ArgumentExtractor vm args A Index).1 ++ (impl.extractAll vm args rest).1 := by
  rw [impl.extractAll]
  rcases impl.ArgumentExtractor vm args A Index with ⟨ev, r⟩
  cases r with
  | error e => rfl
  | ok a =>
    simp only
    rcases impl.extractAll vm args rest with ⟨ev2, r2⟩
    cases r2 <;> rfl

theorem impl.extractAll_not_invoked (vm : Engine) (args : List Word)
    (l : List (ArgTy × Nat)) : invoked (impl.extractAll vm args l).1 = false := by
  induction l with
  | nil => rfl
  | cons x rest ih =>
    obtain ⟨A, Index⟩ := x
    have h1 := impl.ArgumentExtractor_not_invoked vm args A Index
    rw [impl.extractAll_cons_fst]
    cases (impl.ArgumentExtractor vm args A Index).2 with
    | error e => exact h1
    | ok a => simp only [invoked_append, h1, ih, Bool.or_self]

theorem impl.ArgumentExtractor_in_bounds (vm : Engine) (args : List Word) (A : ArgTy)
    (Index : Nat) (h : Index < args.length) :
    (impl.ArgumentExtractor vm args A Index).2 ≠ Except.error Failure.outOfBounds := by
  have hg : getField args Index = some (args[Index]) := by
    simp [getField, List.getElem?_eq_getElem h]
  unfold impl.ArgumentExtractor
  cases A with
  | ptr T =>
    simp only [hg]
    split
    · simp
    · cases vm.checked_cast T args[Index] <;> simp
  | integer =>
    simp only [hg]
    cases TInteger.ofObject args[Index] <;> simp

theorem impl.extractAll_in_bounds (vm : Engine) (args : List Word)
    (l : List (ArgTy × Nat)) (h : ∀ x ∈ l, x.2 < args.length) :
    (impl.extractAll vm args l).2 ≠ Except.error Failure.outOfBounds := by
  induction l with
  | nil => simp [impl.extractAll]
  | cons x rest ih =>
    obtain ⟨A, Index⟩ := x
    have h1 := impl.ArgumentExtractor_in_bounds vm args A Index
      (h (A, Index) (List.mem_cons_self _ _))
    have h2 := ih (fun y hy => h y (List.mem_cons_of_mem _ hy))
    rw [impl.extractAll_cons_snd]
    cases hx : (impl.ArgumentExtractor vm args A Index).2 with
    | error e => rw [hx] at h1; simpa using h1
    | ok a =>
      simp only
      cases hr : (impl.extractAll vm args rest).2 with
      | error e => rw [hr] at h2; simpa using h2
      | ok as => simp

theorem impl.extractAll_error_of_mem (vm : Engine) (args : List Word)
    (l : List (ArgTy × Nat)) (A : ArgTy) (Index : Nat) (e : Failure)
    (hmem : (A, Index) ∈ l) (herr : (impl.ArgumentExtractor vm args A Index).2 = Except.error e) :
    ∃ e2, (impl.extractAll vm args l).2 = Except.error e2 := by
  induction l with
  | nil => simp at hmem
  | cons x rest ih =>
    obtain ⟨B, j⟩ := x
    rw [impl.extractAll_cons_snd]
    cases hx : (impl.ArgumentExtractor vm args B j).2 with
    | error e1 => exact ⟨e1, rfl⟩
    | ok a =>
      simp only
      rcases List.mem_cons.mp hmem with h | h
      · injection h with hA hI
        subst hA; subst hI
        rw [hx] at herr
        cases herr
      · obtain ⟨e2, h2⟩ := ih h
        rw [h2]
        exact ⟨e2, rfl⟩

theorem impl.Indexes_in_bounds (vm : Engine) (p : TNativeMethodPointer) (args : List Word)
    (harity : args.length = declaredArity vm.VM p.Args + 1) :
    ∀ x ∈ p.Args.zip (impl.VMArgumentAnalyzer vm.VM p.Args), x.2 < args.length := by
  intro x hx
  obtain ⟨A, Index⟩ := x
  have h1 := impl.le_max_of_mem (List.of_mem_zip hx).2
  rw [impl.max_Indexes] at h1
  simp only
  omega

theorem TNativeMethodPointer.operator_of_arity (p : TNativeMethodPointer) (vm : Engine)
    (args : List Word) (harity : args.length = declaredArity vm.VM p.Args + 1) :
    p.operator vm args = p.call vm args (impl.VMArgumentAnalyzer vm.VM p.Args) := by
  unfold TNativeMethodPointer.operator
  rw [impl.max_Indexes]
  simp [harity]

theorem TNativeMethodPointer.call_snd (p : TNativeMethodPointer) (vm : Engine)
    (args : List Word) (Indexes : List Nat) :
    (p.call vm args Indexes).2 =
      match getField args 0 with
      | none => Except.error Failure.outOfBounds
      | some object =>
        match vm.checked_cast p.T object with
        | Except.error what => Except.error (Failure.NativeMethodInvocationError what)
        | Except.ok receiver =>
          match (impl.extractAll vm args (p.Args.zip Indexes)).2 with
          | Except.error e => Except.error e
          | Except.ok as => Except.ok (impl.Invoker vm p.m_method receiver as).2 := by
  unfold TNativeMethodPointer.call
  cases getField args 0 with
  | none => rfl
  | some object =>
    simp only
    cases vm.checked_cast p.T object with
    | error what => rfl
    | ok receiver =>
      simp only
      rcases impl.extractAll vm args (p.Args.zip Indexes) with ⟨ev, r⟩
      cases r <;> rfl

theorem TNativeMethodPointer.call_fst (p : TNativeMethodPointer) (vm : Engine)
    (args : List Word) (Indexes : List Nat) :
    (p.call vm args Indexes).1 =
      match getField args 0 with
      | none => [Event.getField 0]
      | some object =>
        match vm.checked_cast p.T object with
        | Except.error _ => [Event.getField 0]
        | Except.ok receiver =>
          match (impl.extractAll vm args (p.Args.zip Indexes)).2 with
          | Except.error _ =>
            Event.getField 0 :: (impl.extractAll vm args (p.Args.zip Indexes)).1
          | Except.ok as =>
            Event.getField 0 :: ((impl.extractAll vm args (p.Args.zip Indexes)).1 ++
              [Event.invoke receiver as]) := by
  unfold TNativeMethodPointer.call
  cases getField args 0 with
  | none => rfl
  | some object =>
    simp only
    cases vm.checked_cast p.T object with
    | error what => rfl
    | ok receiver =>
      simp only
      rcases impl.extractAll vm args (p.Args.zip Indexes) with ⟨ev, r⟩
      cases r with
      | error e => rfl
      | ok as => cases p.m_method <;> rfl

theorem invoked_cons_getField (i : Nat) (ev : List Event) :
    invoked (Event.getField i :: ev) = invoked ev := by
  simp [invoked, Event.isInvoke]

theorem filter_isInvoke_of_not_invoked {ev : List Event} (h : invoked ev = false) :
    ev.filter Event.isInvoke = [] := by
  unfold invoked at h
  rw [List.filter_eq_nil_iff]
  intro a ha
  have := List.any_eq_false.mp h a ha
  simpa using this

theorem impl.extractAll_error_unique (vm : Engine) (args : List Word)
    (l : List (ArgTy × Nat)) (e : Failure)
    (hfail : ∃ x ∈ l, (impl.ArgumentExtractor vm args x.1 x.2).2 = Except.error e)
    (hall : ∀ x ∈ l, (∃ a, (impl.ArgumentExtractor vm args x.1 x.2).2 = Except.ok a) ∨
      (impl.ArgumentExtractor vm args x.1 x.2).2 = Except.error e) :
    (impl.extractAll vm args l).2 = Except.error e := by
  induction l with
  | nil => obtain ⟨x, hx, _⟩ := hfail; simp at hx
  | cons y rest ih =>
    obtain ⟨B, j⟩ := y
    rw [impl.extractAll_cons_snd]
    rcases hall (B, j) (List.mem_cons_self _ _) with ⟨a, ha⟩ | hb
    · simp only at ha
      rw [ha]
      simp only
      obtain ⟨x, hx, hxe⟩ := hfail
      rcases List.mem_cons.mp hx with h | h
      · subst h
        simp only at hxe
        rw [ha] at hxe
        cases hxe
      · rw [ih ⟨x, h, hxe⟩ (fun z hz => hall z (List.mem_cons_of_mem _ hz))]
    · simp only at hb
      rw [hb]

theorem impl.ArgumentExtractor_integer_heap (vm : Engine) (args : List Word) (Index : Nat)
    (object : Word) (hslot : getField args Index = some object) (hheap : object % 2 = 0) :
    (impl.ArgumentExtractor vm args ArgTy.integer Index).2 =
      Except.error (Failure.NativeMethodInvocationError "SmallInteger expected") := by
  have hc : TInteger.ofObject object = Except.error "std::bad_cast" := by
    unfold TInteger.ofObject
    rw [if_neg (fun h => by rw [hheap] at h; exact absurd h (by decide))]
  unfold impl.ArgumentExtractor
  simp only [hslot, hc]

theorem TNativeMethodPointer.call_error_not_invoked (p : TNativeMethodPointer) (vm : Engine)
    (args : List Word) (Indexes : List Nat) (e : Failure)
    (h : (p.call vm args Indexes).2 = Except.error e) :
    invoked (p.call vm args Indexes).1 = false := by
  rw [TNativeMethodPointer.call_snd] at h
  rw [TNativeMethodPointer.call_fst]
  revert h
  cases getField args 0 with
  | none => intro _; rfl
  | some object =>
    simp only
    cases vm.checked_cast p.T object with
    | error what => intro _; rfl
    | ok receiver =>
      simp only
      cases (impl.extractAll vm args (p.Args.zip Indexes)).2 with
      | error e2 =>
        intro _
        simp only [invoked_cons_getField]
        exact impl.extractAll_not_invoked vm args _
      | ok as => intro h; simp at h

theorem TNativeMethodPointer.call_in_bounds (p : TNativeMethodPointer) (vm : Engine)
    (args : List Word) (harity : args.length = declaredArity vm.VM p.Args + 1) :
    (p.call vm args (impl.VMArgumentAnalyzer vm.VM p.Args)).2 ≠
      Except.error Failure.outOfBounds := by
  have hb := impl.extractAll_in_bounds vm args _ (impl.Indexes_in_bounds vm p args harity)
  have h0 : getField args 0 = some (args[0]) := by
    simp [getField, List.getElem?_eq_getElem (show 0 < args.length by omega)]
  rw [TNativeMethodPointer.call_snd, h0]
  simp only
  cases vm.checked_cast p.T args[0] with
  | error what => simp
  | ok receiver =>
    simp only
    cases hr : (impl.extractAll vm args
        (p.Args.zip (impl.VMArgumentAnalyzer vm.VM p.Args))).2 with
    | error e => rw [hr] at hb; simpa using hb
    | ok as => simp

theorem Failure.eq_invocation_of_ne {e : Failure} (h : e ≠ Failure.outOfBounds) :
    ∃ what, e = Failure.NativeMethodInvocationError what := by
  cases e with
  | NativeMethodInvocationError what => exact ⟨what, rfl⟩
  | outOfBounds => exact absurd rfl h

theorem operator_of_bad_arity (p : TNativeMethodPointer) (vm : Engine) (args : List Word)
    (h : args.length ≠ declaredArity vm.VM p.Args + 1) :
    p.operator vm args =
      ([], Except.error (Failure.NativeMethodInvocationError
        "Incorrect number of arguments passed to native method")) := by
  unfold TNativeMethodPointer.operator
  rw [impl.max_Indexes]
  simp [h]

/-- C1: a dispatch whose argument array does not hold exactly the receiver plus the
`k` declared parameters (a leading engine handle not counted) fails with the
argument-count error, reads no argument slot and does not invoke the routine: the
event list is empty. -/
theorem arity_check (p : TNativeMethodPointer) (vm : Engine) (args : List Word)
    (h : args.length ≠ declaredArity vm.VM p.Args + 1) :
    p.operator vm args =
      ([], Except.error (Failure.NativeMethodInvocationError
        "Incorrect number of arguments passed to native method")) := by
  unfold TNativeMethodPointer.operator
  rw [impl.max_Indexes]
  simp [h]

/-- Witness for C1: a routine with one declared parameter dispatched on an array that
holds only the receiver. -/
theorem arity_check_witness :
    [100].length ≠ declaredArity sampleEngine.VM [ArgTy.integer] + 1 ∧
    (TNativeMethodPointer.mk 1 [ArgTy.integer] Fptr.void).operator sampleEngine [100] =
      ([], Except.error (Failure.NativeMethodInvocationError
        "Incorrect number of arguments passed to native method")) :=
  ⟨by decide, arity_check (TNativeMethodPointer.mk 1 [ArgTy.integer] Fptr.void) sampleEngine
    [100] (by decide)⟩

/-- C3, as stated, fails: with a receiver of the wrong class and a heap reference in
the slot of a `TInteger` parameter, the dispatch fails with the message of the failed
receiver cast, not with "SmallInteger expected". -/
theorem small_integer_guard_counterexample :
    (ArgTy.integer, 1) ∈ [ArgTy.integer].zip (impl.VMArgumentAnalyzer sampleEngine.VM
      [ArgTy.integer]) ∧
    getField [300, 200] 1 = some 200 ∧ 200 % 2 = 0 ∧
    ((TNativeMethodPointer.mk 1 [ArgTy.integer] Fptr.void).operator sampleEngine
        [300, 200]).2 = Except.error (Failure.NativeMethodInvocationError "bad cast") ∧
    ((TNativeMethodPointer.mk 1 [ArgTy.integer] Fptr.void).operator sampleEngine
        [300, 200]).2 ≠
      Except.error (Failure.NativeMethodInvocationError "SmallInteger expected") := by
  have hres : ((TNativeMethodPointer.mk 1 [ArgTy.integer] Fptr.void).operator sampleEngine
      [300, 200]).2 = Except.error (Failure.NativeMethodInvocationError "bad cast") := rfl
  refine ⟨by decide, rfl, rfl, hres, ?_⟩
  rw [hres]
  intro h
  injection h with h
  injection h with h
  exact absurd h (by decide)

/-- C3, amended: when the slot of a `TInteger` parameter holds a heap reference (a word
without the tag bit), the dispatch fails with a `NativeMethodInvocationError` and the
routine is not invoked, so the slot is never passed on as an integer; the message is
"SmallInteger expected" whenever the arity check passes, the receiver cast succeeds and
the conversions of the other parameters succeed. -/
theorem small_integer_guard (p : TNativeMethodPointer) (vm : Engine) (args : List Word)
    (Index : Nat) (object : Word)
    (hmem : (ArgTy.integer, Index) ∈ p.Args.zip (impl.VMArgumentAnalyzer vm.VM p.Args))
    (hslot : getField args Index = some object) (hheap : object % 2 = 0) :
    (∃ what, (p.operator vm args).2 =
        Except.error (Failure.NativeMethodInvocationError what)) ∧
    invoked (p.operator vm args).1 = false ∧
    (args.length = declaredArity vm.VM p.Args + 1 →
      (∃ object0 receiver, getField args 0 = some object0 ∧
        vm.checked_cast p.T object0 = Except.ok receiver) →
      (∀ x ∈ p.Args.zip (impl.VMArgumentAnalyzer vm.VM p.Args), x ≠ (ArgTy.integer, Index) →
        ∃ a, (impl.ArgumentExtractor vm args x.1 x.2).2 = Except.ok a) →
      (p.operator vm args).2 =
        Except.error (Failure.NativeMethodInvocationError "SmallInteger expected")) := by
  have hex := impl.ArgumentExtractor_integer_heap vm args Index object hslot hheap
  by_cases harity : args.length = declaredArity vm.VM p.Args + 1
  · have hib := TNativeMethodPointer.call_in_bounds p vm args harity
    rw [TNativeMethodPointer.operator_of_arity p vm args harity]
    obtain ⟨e2, h2⟩ := impl.extractAll_error_of_mem vm args _ _ _ _ hmem hex
    have herr : ∃ e, (p.call vm args (impl.VMArgumentAnalyzer vm.VM p.Args)).2 =
        Except.error e := by
      rw [TNativeMethodPointer.call_snd]
      cases getField args 0 with
      | none => exact ⟨_, rfl⟩
      | some object0 =>
        simp only
        cases vm.checked_cast p.T object0 with
        | error what0 => exact ⟨_, rfl⟩
        | ok receiver =>
          simp only
          rw [h2]
          exact ⟨_, rfl⟩
    obtain ⟨e, he⟩ := herr
    refine ⟨?_, TNativeMethodPointer.call_error_not_invoked p vm args _ e he, ?_⟩
    · rw [he] at hib
      have hne : e ≠ Failure.outOfBounds := fun h => hib (by rw [h])
      obtain ⟨what, hw⟩ := Failure.eq_invocation_of_ne hne
      exact ⟨what, by rw [he, hw]⟩
    · rintro - ⟨object0, receiver, h0, hc⟩ hothers
      rw [TNativeMethodPointer.call_snd, h0]
      simp only [hc]
      rw [impl.extractAll_error_unique vm args _ _ ⟨_, hmem, hex⟩]
      intro x hx
      by_cases hxe : x = (ArgTy.integer, Index)
      · right
        rw [hxe]
        exact hex
      · left
        exact hothers x hx hxe
  · rw [operator_of_bad_arity p vm args harity]
    exact ⟨⟨_, rfl⟩, rfl, fun h => absurd h harity⟩

/-- Witness for C3: a `TInteger` parameter whose slot holds the heap reference `200`,
with a receiver of the right class. -/
theorem small_integer_guard_witness :
    ((ArgTy.integer, 1) ∈ [ArgTy.integer].zip (impl.VMArgumentAnalyzer sampleEngine.VM
      [ArgTy.integer]) ∧ getField [100, 200] 1 = some 200 ∧ 200 % 2 = 0) ∧
    ((TNativeMethodPointer.mk 1 [ArgTy.integer] Fptr.void).operator sampleEngine
        [100, 200]).2 =
      Except.error (Failure.NativeMethodInvocationError "SmallInteger expected") :=
  ⟨⟨by decide, rfl, rfl⟩,
    (small_integer_guard (TNativeMethodPointer.mk 1 [ArgTy.integer] Fptr.void) sampleEngine
      [100, 200] 1 200 (by decide) rfl rfl).2.2 (by decide) ⟨100, 100, rfl, rfl⟩
      (fun _ hx hne => absurd (List.mem_singleton.mp hx) hne)⟩

/-- C4: in a successful dispatch the routine is invoked exactly once; the result is
`globals.nilObject` when the routine returns `void`, and the value the routine
returned, unchanged, when its return type converts to `TObject*`. -/
theorem result_conversion (p : TNativeMethodPointer) (vm : Engine) (args : List Word)
    (r : Word) (h : (p.operator vm args).2 = Except.ok r) :
    ∃ receiver as,
      (p.operator vm args).1.filter Event.isInvoke = [Event.invoke receiver as] ∧
      match p.m_method with
      | Fptr.void => r = vm.nilObject
      | Fptr.returning method => r = method receiver as := by
  by_cases harity : args.length = declaredArity vm.VM p.Args + 1
  · rw [TNativeMethodPointer.operator_of_arity p vm args harity] at h ⊢
    rw [TNativeMethodPointer.call_snd] at h
    rw [TNativeMethodPointer.call_fst]
    revert h
    cases getField args 0 with
    | none => intro h; simp at h
    | some object =>
      simp only
      cases vm.checked_cast p.T object with
      | error what => intro h; simp at h
      | ok receiver =>
        simp only
        have hni := filter_isInvoke_of_not_invoked (impl.extractAll_not_invoked vm args
          (p.Args.zip (impl.VMArgumentAnalyzer vm.VM p.Args)))
        cases (impl.extractAll vm args
            (p.Args.zip (impl.VMArgumentAnalyzer vm.VM p.Args))).2 with
        | error e => intro h; simp at h
        | ok as =>
          intro h
          simp only [Except.ok.injEq] at h
          refine ⟨receiver, as, ?_, ?_⟩
          · simp [List.filter_cons, Event.isInvoke, hni]
          · subst h
            cases p.m_method <;> rfl
  · rw [operator_of_bad_arity p vm args harity] at h
    simp at h

/-- Witness for C4: a `void` routine with one `TInteger` parameter, dispatched on a
receiver of its class and a tagged small integer. -/
theorem result_conversion_witness :
    ((TNativeMethodPointer.mk 1 [ArgTy.integer] Fptr.void).operator sampleEngine
        [100, 7]).2 = Except.ok 2 ∧
    ∃ receiver as,
      ((TNativeMethodPointer.mk 1 [ArgTy.integer] Fptr.void).operator sampleEngine
        [100, 7]).1.filter Event.isInvoke = [Event.invoke receiver as] ∧
      (2 : Word) = sampleEngine.nilObject :=
  ⟨rfl, result_conversion (TNativeMethodPointer.mk 1 [ArgTy.integer] Fptr.void) sampleEngine
    [100, 7] 2 rfl⟩

end LLST

namespace LLST

/-! ## Root-chain walk -/

theorem threadMap_length {σ : Type} (f : σ → Word → σ × Word) (s : σ) (l : List Word) :
    (threadMap f s l).2.length = l.length := by
  induction l generalizing s with
  | nil => rfl
  | cons v vs ih => simp [threadMap, ih]

theorem threadMap_getElem? {σ : Type} (f : σ → Word → σ × Word) (s : σ) (l : List Word)
    (i : Nat) (v : Word) (h : l[i]? = some v) :
    ∃ g, (threadMap f s l).2[i]? = some (f g v).2 := by
  induction l generalizing s i with
  | nil => simp at h
  | cons x xs ih =>
    cases i with
    | zero =>
      simp only [List.getElem?_cons_zero, Option.some.injEq] at h
      subst h
      exact ⟨s, by simp [threadMap]⟩
    | succ j =>
      simp only [List.getElem?_cons_succ] at h
      obtain ⟨g, hg⟩ := ih (f s x).1 j h
      exact ⟨g, by simpa [threadMap] using hg⟩

theorem threadMap_forwarded {σ : Type} (f : σ → Word → σ × Word)
    (Fwd : σ → Word → Word → Prop) (good : Word → Prop)
    (hA : ∀ s v, good v → Fwd (f s v).1 v (f s v).2)
    (hB : ∀ s w v a, Fwd s v a → Fwd (f s w).1 v a)
    (s : σ) (l : List Word) :
    (∀ v a, Fwd s v a → Fwd (threadMap f s l).1 v a) ∧
    ∀ (i : Nat) (v : Word), l[i]? = some v → good v →
      ∃ w, (threadMap f s l).2[i]? = some w ∧ Fwd (threadMap f s l).1 v w := by
  induction l generalizing s with
  | nil => exact ⟨fun v a h => h, fun i v h => by simp at h⟩
  | cons x xs ih =>
    obtain ⟨ih1, ih2⟩ := ih (f s x).1
    refine ⟨fun v a h => ih1 v a (hB s x v a h), ?_⟩
    intro i v h hv
    cases i with
    | zero =>
      simp only [List.getElem?_cons_zero, Option.some.injEq] at h
      subst h
      exact ⟨(f s x).2, by simp [threadMap], ih1 _ _ (hA s x hv)⟩
    | succ j =>
      simp only [List.getElem?_cons_succ] at h
      obtain ⟨w, hw, hf⟩ := ih2 j v h hv
      exact ⟨w, by simpa [threadMap] using hw, hf⟩

theorem set_take_succ (roots : List Word) (index : Nat) (x : Word)
    (hlt : index < roots.length) :
    (roots.set index x).take (index + 1) = roots.take index ++ [x] := by
  rw [List.set_eq_take_append_cons_drop, if_pos hlt]
  have hl : (roots.take index).length = index := List.length_take_of_le (le_of_lt hlt)
  rw [List.take_append_eq_append_take, hl, List.take_of_length_le (by omega)]
  simp

theorem moveRootsLoop_eq {GC : Type} (c : Collector GC) (n index : Nat) (gc : GC)
    (roots : List Word) (h : index + n = roots.length) :
    moveRootsLoop c n index gc roots =
      some ((threadMap (moveSlot c) gc (roots.drop index)).1,
        roots.take index ++ (threadMap (moveSlot c) gc (roots.drop index)).2) := by
  induction n generalizing index gc roots with
  | zero =>
    have h1 : roots.length ≤ index := by omega
    simp [moveRootsLoop, List.drop_of_length_le h1, List.take_of_length_le h1, threadMap]
  | succ n ih =>
    have hlt : index < roots.length := by omega
    have hdrop : roots.drop index = roots[index] :: roots.drop (index + 1) :=
      List.drop_eq_getElem_cons hlt
    have hset : ∀ x, (roots.set index x).drop (index + 1) = roots.drop (index + 1) := by
      intro x
      exact List.drop_set_of_lt _ _ (Nat.lt_succ_self index)
    have hlen : ∀ x, index + 1 + n = (roots.set index x).length := by
      intro x
      rw [List.length_set]
      omega
    rw [moveRootsLoop, List.getElem?_eq_getElem hlt, hdrop]
    simp only [threadMap]
    by_cases h0 : roots[index] = 0
    · rw [if_neg (by simpa using h0), ih _ _ _ (hlen _), hset, set_take_succ _ _ _ hlt]
      simp [moveSlot, h0]
    · rw [if_pos h0, ih _ _ _ (hlen _), hset, set_take_succ _ _ _ hlt]
      simp [moveSlot, h0]

theorem isChain_congr (f g : Frames) (addrs : List Nat) (head : Nat)
    (h : ∀ a ∈ addrs, f a = g a) : isChain f head addrs = isChain g head addrs := by
  induction addrs generalizing head with
  | nil => rfl
  | cons a rest ih =>
    simp only [isChain]
    rw [h a (List.mem_cons_self _ _)]
    cases g a with
    | none => rfl
    | some e => simp only; rw [ih e.next (fun b hb => h b (List.mem_cons_of_mem _ hb))]

theorem Frames.write_same (frames : Frames) (a : Nat) (e : TStackEntry) :
    frames.write a e a = some e := by
  simp [Frames.write]

theorem Frames.write_other (frames : Frames) (a b : Nat) (e : TStackEntry) (h : b ≠ a) :
    frames.write a e b = frames b := by
  simp [Frames.write, h]

theorem walkChain_eq {GC : Type} (c : Collector GC) (addrs : List Nat) :
    ∀ (fuel : Nat) (gc : GC) (frames : Frames) (head : Nat),
      isChain frames head addrs = true → addrs.Nodup → wellFormed frames addrs →
      addrs.length < fuel →
      ∃ frames1, walkChain c fuel gc frames head =
          Outcome.done ((moveChain c gc (addrs.filterMap frames)).1, frames1) ∧
        addrs.map frames1 = (moveChain c gc (addrs.filterMap frames)).2.map some ∧
        ∀ a, a ∉ addrs → frames1 a = frames a := by
  induction addrs with
  | nil =>
    intro fuel gc frames head hc _ _ hf
    obtain ⟨fuel, rfl⟩ : ∃ k, fuel = k + 1 := ⟨fuel - 1, by simp at hf; omega⟩
    have h0 : head = 0 := by simpa [isChain] using hc
    exact ⟨frames, by simp [walkChain, h0, moveChain], by simp [moveChain], fun _ _ => rfl⟩
  | cons a rest ih =>
    intro fuel gc frames head hc hnd hwf hf
    obtain ⟨fuel, rfl⟩ : ∃ k, fuel = k + 1 := ⟨fuel - 1, by simp at hf; omega⟩
    simp only [isChain, Bool.and_eq_true, beq_iff_eq, bne_iff_ne, ne_eq] at hc
    obtain ⟨⟨hha, ha0⟩, hrest⟩ := hc
    subst hha
    cases hfa : frames head with
    | none => rw [hfa] at hrest; simp at hrest
    | some e =>
      rw [hfa] at hrest
      simp only at hrest
      have hnot : head ∉ rest := (List.nodup_cons.mp hnd).1
      have hnum : e.map.numRoots.toNat = e.roots.length := by
        rw [hwf head (List.mem_cons_self _ _) e hfa]
        simp
      have hloop := moveRootsLoop_eq c e.map.numRoots.toNat 0 gc e.roots (by omega)
      simp only [List.drop_zero, List.take_zero, List.nil_append] at hloop
      have hagree : ∀ b ∈ rest,
          frames.write head { e with roots := (threadMap (moveSlot c) gc e.roots).2 } b =
            frames b := by
        intro b hb
        exact Frames.write_other _ _ _ _ (fun h => hnot (h ▸ hb))
      have hc1 : isChain (frames.write head
          { e with roots := (threadMap (moveSlot c) gc e.roots).2 }) e.next rest = true := by
        rw [isChain_congr _ frames rest e.next hagree]
        exact hrest
      have hwf1 : wellFormed (frames.write head
          { e with roots := (threadMap (moveSlot c) gc e.roots).2 }) rest := by
        intro b hb e1 he1
        rw [hagree b hb] at he1
        exact hwf b (List.mem_cons_of_mem _ hb) e1 he1
      obtain ⟨frames1, hw, hmap, hout⟩ := ih fuel (threadMap (moveSlot c) gc e.roots).1
        (frames.write head { e with roots := (threadMap (moveSlot c) gc e.roots).2 })
        e.next hc1 (List.nodup_cons.mp hnd).2 hwf1 (by simp at hf; omega)
      have hfm : List.filterMap (frames.write head
          { e with roots := (threadMap (moveSlot c) gc e.roots).2 }) rest =
            List.filterMap frames rest := by
        apply List.filterMap_congr
        exact hagree
      rw [hfm] at hw hmap
      refine ⟨frames1, ?_, ?_, ?_⟩
      · rw [walkChain, if_neg ha0, hfa]
        simp only [hloop]
        rw [hw]
        simp [List.filterMap_cons, hfa, moveChain]
      · simp only [List.map_cons, List.filterMap_cons, hfa, moveChain, hmap]
        rw [hout head hnot, Frames.write_same]
      · intro b hb
        have hb1 : b ≠ head := fun h => hb (h ▸ List.mem_cons_self _ _)
        have hb2 : b ∉ rest := fun h => hb (List.mem_cons_of_mem _ h)
        rw [hout b hb2, Frames.write_other _ _ _ _ hb1]

theorem chain_entries (frames : Frames) (addrs : List Nat) (head : Nat)
    (h : isChain frames head addrs = true) :
    addrs.map frames = (addrs.filterMap frames).map some := by
  induction addrs generalizing head with
  | nil => rfl
  | cons a rest ih =>
    simp only [isChain, Bool.and_eq_true] at h
    cases hfa : frames a with
    | none => rw [hfa] at h; simp at h
    | some e =>
      rw [hfa] at h
      simp only [List.map_cons, List.filterMap_cons, hfa, ih e.next h.2]

theorem chain_entry_index (frames : Frames) (addrs : List Nat) (head a : Nat)
    (e : TStackEntry) (h : isChain frames head addrs = true) (ha : a ∈ addrs)
    (he : frames a = some e) :
    ∃ j : Nat, addrs[j]? = some a ∧ (addrs.filterMap frames)[j]? = some e := by
  obtain ⟨j, hj⟩ := List.mem_iff_getElem?.mp ha
  refine ⟨j, hj, ?_⟩
  have h1 : (addrs.map frames)[j]? = some (some e) := by
    rw [List.getElem?_map, hj]
    simp [he]
  rw [chain_entries frames addrs head h, List.getElem?_map] at h1
  cases hx : (addrs.filterMap frames)[j]? with
  | none => rw [hx] at h1; simp at h1
  | some x => rw [hx] at h1; simpa using h1

theorem frames_of_index (frames1 : Frames) (addrs : List Nat) (es : List TStackEntry)
    (j a : Nat) (e1 : TStackEntry) (hmap : addrs.map frames1 = es.map some)
    (hj : addrs[j]? = some a) (he : es[j]? = some e1) : frames1 a = some e1 := by
  have h1 : (addrs.map frames1)[j]? = some (frames1 a) := by
    rw [List.getElem?_map, hj]
    rfl
  rw [hmap, List.getElem?_map, he] at h1
  simpa using h1.symm

theorem moveChain_slot {GC : Type} (c : Collector GC) (gc : GC) (es : List TStackEntry)
    (j i : Nat) (e : TStackEntry) (v : Word) (hj : es[j]? = some e)
    (hv : e.roots[i]? = some v) :
    ∃ g e1, (moveChain c gc es).2[j]? = some e1 ∧
      e1.roots[i]? = some (moveSlot c g v).2 := by
  induction es generalizing gc j with
  | nil => simp at hj
  | cons x xs ih =>
    cases j with
    | zero =>
      simp only [List.getElem?_cons_zero, Option.some.injEq] at hj
      subst hj
      obtain ⟨g, hg⟩ := threadMap_getElem? (moveSlot c) gc x.roots i v hv
      exact ⟨g, { x with roots := (threadMap (moveSlot c) gc x.roots).2 },
        by simp [moveChain], hg⟩
    | succ k =>
      simp only [List.getElem?_cons_succ] at hj
      obtain ⟨g, e1, h1, h2⟩ := ih (threadMap (moveSlot c) gc x.roots).1 k hj
      exact ⟨g, e1, by simpa [moveChain] using h1, h2⟩

theorem moveChain_forwarded {GC : Type} (c : Collector GC)
    (Fwd : GC → Word → Word → Prop) (good : Word → Prop)
    (hA : ∀ s v, good v → Fwd (moveSlot c s v).1 v (moveSlot c s v).2)
    (hB : ∀ s w v a, Fwd s v a → Fwd (moveSlot c s w).1 v a)
    (gc : GC) (es : List TStackEntry) :
    (∀ v a, Fwd gc v a → Fwd (moveChain c gc es).1 v a) ∧
    ∀ (j i : Nat) (e : TStackEntry) (v : Word), es[j]? = some e → e.roots[i]? = some v →
      good v →
      ∃ e1 w, (moveChain c gc es).2[j]? = some e1 ∧ e1.roots[i]? = some w ∧
        Fwd (moveChain c gc es).1 v w := by
  induction es generalizing gc with
  | nil => exact ⟨fun v a h => h, fun j i e v h => by simp at h⟩
  | cons x xs ih =>
    obtain ⟨t1, t2⟩ := threadMap_forwarded (moveSlot c) Fwd good hA hB gc x.roots
    obtain ⟨ih1, ih2⟩ := ih (threadMap (moveSlot c) gc x.roots).1
    refine ⟨fun v a h => ih1 v a (t1 v a h), ?_⟩
    intro j i e v hj hv hgood
    cases j with
    | zero =>
      simp only [List.getElem?_cons_zero, Option.some.injEq] at hj
      subst hj
      obtain ⟨w, hw, hf⟩ := t2 i v hv hgood
      exact ⟨{ x with roots := (threadMap (moveSlot c) gc x.roots).2 }, w,
        by simp [moveChain], hw, ih1 v w hf⟩
    | succ k =>
      simp only [List.getElem?_cons_succ] at hj
      obtain ⟨e1, w, h1, h2, h3⟩ := ih2 k i e v hj hv hgood
      exact ⟨e1, w, by simpa [moveChain] using h1, h2, h3⟩

theorem LLVMMemoryManager.moveObjects_eq {GC : Type} (c : Collector GC) (fuel : Nat)
    (s : GCState GC) (addrs : List Nat)
    (hchain : isChain s.frames s.llvm_gc_root_chain addrs = true) (hnodup : addrs.Nodup)
    (hwf : wellFormed s.frames addrs) (hfuel : addrs.length < fuel) :
    ∃ s1, LLVMMemoryManager.moveObjects c fuel s = Outcome.done s1 ∧
      s1.gc = (moveChain c (c.moveObjects s.gc) (addrs.filterMap s.frames)).1 ∧
      addrs.map s1.frames =
        (moveChain c (c.moveObjects s.gc) (addrs.filterMap s.frames)).2.map some ∧
      (∀ a, a ∉ addrs → s1.frames a = s.frames a) ∧
      s1.llvm_gc_root_chain = s.llvm_gc_root_chain := by
  obtain ⟨frames1, hw, hmap, hout⟩ := walkChain_eq c addrs fuel (c.moveObjects s.gc)
    s.frames s.llvm_gc_root_chain hchain hnodup hwf hfuel
  refine ⟨{ gc := _, llvm_gc_root_chain := s.llvm_gc_root_chain, frames := frames1 },
    ?_, rfl, hmap, hout, rfl⟩
  unfold LLVMMemoryManager.moveObjects
  rw [hw]

/-- C5: on a finite, acyclic chain of well-formed descriptors the walk completes, and
its result is the specified one: the collector's own `moveObjects` runs first, then the
descriptors are handled from head to tail and in each one every slot once, in order, a
null slot staying null and any other value `v` being replaced by `moveObject(v)`;
nothing else in the frame memory changes. -/
theorem chain_walk {GC : Type} (c : Collector GC) (fuel : Nat)
    (s : GCState GC) (addrs : List Nat)
    (hchain : isChain s.frames s.llvm_gc_root_chain addrs = true) (hnodup : addrs.Nodup)
    (hwf : wellFormed s.frames addrs) (hfuel : addrs.length < fuel) :
    ∃ s1, LLVMMemoryManager.moveObjects c fuel s = Outcome.done s1 ∧
      s1.gc = (moveChain c (c.moveObjects s.gc) (addrs.filterMap s.frames)).1 ∧
      addrs.map s1.frames =
        (moveChain c (c.moveObjects s.gc) (addrs.filterMap s.frames)).2.map some ∧
      (∀ a, a ∉ addrs → s1.frames a = s.frames a) :=
  let ⟨s1, h1, h2, h3, h4, _⟩ :=
    LLVMMemoryManager.moveObjects_eq c fuel s addrs hchain hnodup hwf hfuel
  ⟨s1, h1, h2, h3, h4⟩

theorem sampleFrames_wellFormed : wellFormed sampleFrames [8, 16] := by
  intro a ha e he
  simp only [List.mem_cons, List.mem_singleton, List.not_mem_nil, or_false] at ha
  rcases ha with rfl | rfl
  · have h8 : sampleFrames 8 =
        some { next := 16, map := { numRoots := 3 }, roots := [7, 0, 40] } := rfl
    rw [h8] at he
    injection he with he
    subst he
    rfl
  · have h16 : sampleFrames 16 =
        some { next := 0, map := { numRoots := 1 }, roots := [40] } := rfl
    rw [h16] at he
    injection he with he
    subst he
    rfl

/-- Witness for C5: the two-frame sample chain, walked with the logging collector. -/
theorem chain_walk_witness :
    (isChain sampleFrames 8 [8, 16] = true ∧ [8, 16].Nodup ∧
      wellFormed sampleFrames [8, 16] ∧ [8, 16].length < 3) ∧
    ∃ s1, LLVMMemoryManager.moveObjects loggingCollector 3
        { gc := [], llvm_gc_root_chain := 8, frames := sampleFrames } = Outcome.done s1 ∧
      s1.gc = (moveChain loggingCollector (loggingCollector.moveObjects [])
        ([8, 16].filterMap sampleFrames)).1 ∧
      [8, 16].map s1.frames = (moveChain loggingCollector (loggingCollector.moveObjects [])
        ([8, 16].filterMap sampleFrames)).2.map some ∧
      (∀ a, a ∉ [8, 16] → s1.frames a = sampleFrames a) :=
  ⟨⟨by decide, by decide, sampleFrames_wellFormed, by decide⟩,
    chain_walk loggingCollector 3 { gc := [], llvm_gc_root_chain := 8, frames := sampleFrames }
      [8, 16] (by decide) (by decide) sampleFrames_wellFormed (by decide)⟩

/-- C6, as stated, fails: the walk tests a slot only against null, so the tagged small
integer `7` in slot 0 of the first sample frame is handed to `moveObject`, as the call
log of the logging collector shows. -/
theorem tagged_slot_counterexample :
    (sampleFrames 8).map (fun e => e.roots[0]?) = some (some 7) ∧ 7 % 2 = 1 ∧
    (match LLVMMemoryManager.moveObjects loggingCollector 3
        { gc := [], llvm_gc_root_chain := 8, frames := sampleFrames } with
      | Outcome.done s1 => some s1.gc
      | _ => none) = some [7, 40, 40] := by
  refine ⟨by decide, by decide, ?_⟩
  decide

/-- C6, amended: a slot that holds a tagged small integer `v` is not null, so the walk
hands it to `moveObject` like any other non-null slot and stores what `moveObject`
returns; the slot therefore holds the same tagged value afterwards whenever
`moveObject` returns tagged small integers unchanged. -/
theorem tagged_slot {GC : Type} (c : Collector GC) (fuel : Nat)
    (s : GCState GC) (addrs : List Nat) (a i : Nat) (e : TStackEntry) (v : Word)
    (hchain : isChain s.frames s.llvm_gc_root_chain addrs = true) (hnodup : addrs.Nodup)
    (hwf : wellFormed s.frames addrs) (hfuel : addrs.length < fuel)
    (ha : a ∈ addrs) (he : s.frames a = some e) (hv : e.roots[i]? = some v)
    (htag : v % 2 = 1) :
    ∃ s1 e1 g, LLVMMemoryManager.moveObjects c fuel s = Outcome.done s1 ∧
      s1.frames a = some e1 ∧ e1.roots[i]? = some (c.moveObject g v).2 ∧
      ((∀ g w, w % 2 = 1 → (c.moveObject g w).2 = w) → e1.roots[i]? = some v) := by
  obtain ⟨s1, hrun, _, hmap, _, _⟩ :=
    LLVMMemoryManager.moveObjects_eq c fuel s addrs hchain hnodup hwf hfuel
  obtain ⟨j, hj, hej⟩ := chain_entry_index s.frames addrs _ a e hchain ha he
  obtain ⟨g, e1, h1, h2⟩ := moveChain_slot c (c.moveObjects s.gc) _ j i e v hej hv
  have hv0 : v ≠ 0 := by
    intro h0
    rw [h0] at htag
    exact absurd htag (by decide)
  have hslot : moveSlot c g v = c.moveObject g v := by
    unfold moveSlot
    rw [if_neg hv0]
  rw [hslot] at h2
  refine ⟨s1, e1, g, hrun, frames_of_index s1.frames addrs _ j a e1 hmap hj h1, h2, ?_⟩
  intro hid
  rw [h2, hid g v htag]

/-- Witness for C6: slot 0 of the first sample frame, which holds the tagged small
integer `7`, walked with the logging collector (whose `moveObject` returns its argument). -/
theorem tagged_slot_witness :
    (isChain sampleFrames 8 [8, 16] = true ∧ [8, 16].Nodup ∧
      wellFormed sampleFrames [8, 16] ∧ [8, 16].length < 3 ∧ 8 ∈ [8, 16] ∧
      sampleFrames 8 = some { next := 16, map := { numRoots := 3 }, roots := [7, 0, 40] } ∧
      [7, 0, 40][0]? = some 7 ∧ 7 % 2 = 1) ∧
    ∃ s1 e1 g, LLVMMemoryManager.moveObjects loggingCollector 3
        { gc := [], llvm_gc_root_chain := 8, frames := sampleFrames } = Outcome.done s1 ∧
      s1.frames 8 = some e1 ∧ e1.roots[0]? = some (loggingCollector.moveObject g 7).2 ∧
      ((∀ g w, w % 2 = 1 → (loggingCollector.moveObject g w).2 = w) →
        e1.roots[0]? = some 7) :=
  ⟨⟨by decide, by decide, sampleFrames_wellFormed, by decide, by decide, rfl, rfl, rfl⟩,
    tagged_slot loggingCollector 3
      { gc := [], llvm_gc_root_chain := 8, frames := sampleFrames } [8, 16] 8 0
      { next := 16, map := { numRoots := 3 }, roots := [7, 0, 40] } 7
      (by decide) (by decide) sampleFrames_wellFormed (by decide) (by decide) rfl rfl rfl⟩

/-! ## The collector modelled from the spec -/

theorem Baker.threadMap_keeps (f : Baker.Heap → Word → Baker.Heap × Word)
    (hB : ∀ h w v a, Baker.Forwarded h v a → Baker.Forwarded (f h w).1 v a)
    (h : Baker.Heap) (l : List Word) (v a : Word) (hf : Baker.Forwarded h v a) :
    Baker.Forwarded (threadMap f h l).1 v a :=
  (threadMap_forwarded f Baker.Forwarded (fun _ => False) (fun _ _ hx => hx.elim) hB h l).1
    v a hf

theorem Baker.reserve_keeps (h : Baker.Heap) (w v a : Word)
    (hnone : h.forward.lookup w = none) (hf : Baker.Forwarded h v a) :
    Baker.Forwarded (h.reserve w) v a := by
  unfold Baker.Forwarded at hf ⊢
  have hne : v ≠ w := by
    intro hvw
    rw [hvw, hnone] at hf
    cases hf
  simp only [Baker.Heap.reserve, List.lookup_cons]
  have hb : (v == w) = false := by simpa using hne
  rw [hb]
  exact hf

theorem Baker.moveObject_keeps (d : Nat) :
    ∀ h w v a, Baker.Forwarded h v a → Baker.Forwarded (Baker.moveObject d h w).1 v a := by
  induction d with
  | zero => intro h w v a hf; exact hf
  | succ d ih =>
    intro h w v a hf
    unfold Baker.moveObject
    split
    · exact hf
    · split
      · exact hf
      · next hnone =>
        have h1 := Baker.threadMap_keeps (Baker.moveObject d) ih (h.reserve w) (h.fields w) v a
          (Baker.reserve_keeps h w v a hnone hf)
        exact h1

theorem Baker.moveObject_forwards (d : Nat) (h : Baker.Heap) (v : Word) (hv : v ≠ 0)
    (he : v % 2 = 0) :
    Baker.Forwarded (Baker.moveObject (d + 1) h v).1 v (Baker.moveObject (d + 1) h v).2 := by
  have hcond : ¬ (v % 2 = 1 ∨ v = 0) := by
    rintro (h1 | h1)
    · rw [he] at h1; exact absurd h1 (by decide)
    · exact hv h1
  unfold Baker.moveObject
  rw [if_neg hcond]
  split
  · next a ha => exact ha
  · next hnone =>
    have h0 : Baker.Forwarded (h.reserve v) v h.free := by
      simp [Baker.Forwarded, Baker.Heap.reserve, List.lookup_cons]
    exact Baker.threadMap_keeps (Baker.moveObject d) (Baker.moveObject_keeps d)
      (h.reserve v) (h.fields v) v h.free h0

theorem Baker.moveSlot_forwards (h : Baker.Heap) (v : Word) (hv : v ≠ 0 ∧ v % 2 = 0) :
    Baker.Forwarded (moveSlot Baker.collector h v).1 v (moveSlot Baker.collector h v).2 := by
  unfold moveSlot
  rw [if_neg hv.1]
  exact Baker.moveObject_forwards h.objects.length h v hv.1 hv.2

theorem Baker.moveSlot_keeps (h : Baker.Heap) (w v a : Word) (hf : Baker.Forwarded h v a) :
    Baker.Forwarded (moveSlot Baker.collector h w).1 v a := by
  unfold moveSlot
  split
  · exact hf
  · exact Baker.moveObject_keeps (h.objects.length + 1) h w v a hf

/-- C7: with the collector modelled from the spec, two slots of the root chain (in the
same or in different descriptors) that hold a reference to the same heap object before
the walk hold equal references after it, namely the address the object's forwarding
marker points to. -/
theorem shared_reference (fuel : Nat) (s : GCState Baker.Heap) (addrs : List Nat)
    (a1 i1 a2 i2 : Nat) (e1 e2 : TStackEntry) (v : Word)
    (hchain : isChain s.frames s.llvm_gc_root_chain addrs = true) (hnodup : addrs.Nodup)
    (hwf : wellFormed s.frames addrs) (hfuel : addrs.length < fuel)
    (ha1 : a1 ∈ addrs) (he1 : s.frames a1 = some e1) (hv1 : e1.roots[i1]? = some v)
    (ha2 : a2 ∈ addrs) (he2 : s.frames a2 = some e2) (hv2 : e2.roots[i2]? = some v)
    (hheap : v ≠ 0 ∧ v % 2 = 0) :
    ∃ s1 f1 f2 w, LLVMMemoryManager.moveObjects Baker.collector fuel s = Outcome.done s1 ∧
      s1.frames a1 = some f1 ∧ s1.frames a2 = some f2 ∧
      f1.roots[i1]? = some w ∧ f2.roots[i2]? = some w ∧
      s1.gc.forward.lookup v = some w := by
  obtain ⟨s1, hrun, hgc, hmap, _, _⟩ :=
    LLVMMemoryManager.moveObjects_eq Baker.collector fuel s addrs hchain hnodup hwf hfuel
  obtain ⟨j1, hj1, hej1⟩ := chain_entry_index s.frames addrs _ a1 e1 hchain ha1 he1
  obtain ⟨j2, hj2, hej2⟩ := chain_entry_index s.frames addrs _ a2 e2 hchain ha2 he2
  have hfw := (moveChain_forwarded Baker.collector Baker.Forwarded
    (fun x => x ≠ 0 ∧ x % 2 = 0) Baker.moveSlot_forwards Baker.moveSlot_keeps
    (Baker.collector.moveObjects s.gc) (addrs.filterMap s.frames)).2
  obtain ⟨f1, w1, hf1, hr1, hw1⟩ := hfw j1 i1 e1 v hej1 hv1 hheap
  obtain ⟨f2, w2, hf2, hr2, hw2⟩ := hfw j2 i2 e2 v hej2 hv2 hheap
  have hw : w2 = w1 := by
    unfold Baker.Forwarded at hw1 hw2
    rw [hw1] at hw2
    exact (Option.some.inj hw2).symm
  subst hw
  refine ⟨s1, f1, f2, w2, hrun, frames_of_index s1.frames addrs _ j1 a1 f1 hmap hj1 hf1,
    frames_of_index s1.frames addrs _ j2 a2 f2 hmap hj2 hf2, hr1, hr2, ?_⟩
  rw [hgc]
  exact hw1

/-- Witness for C7: slot 2 of the first sample frame and slot 0 of the second both refer
to the object at 40. -/
theorem shared_reference_witness :
    (isChain sampleFrames 8 [8, 16] = true ∧ [8, 16].Nodup ∧
      wellFormed sampleFrames [8, 16] ∧ [8, 16].length < 3 ∧
      (sampleFrames 8).map (fun e => e.roots[2]?) = some (some 40) ∧
      (sampleFrames 16).map (fun e => e.roots[0]?) = some (some 40) ∧
      ((40 : Word) ≠ 0 ∧ 40 % 2 = 0)) ∧
    ∃ s1 f1 f2 w, LLVMMemoryManager.moveObjects Baker.collector 3
        { gc := Baker.sampleHeap, llvm_gc_root_chain := 8, frames := sampleFrames } =
          Outcome.done s1 ∧
      s1.frames 8 = some f1 ∧ s1.frames 16 = some f2 ∧
      f1.roots[2]? = some w ∧ f2.roots[0]? = some w ∧
      s1.gc.forward.lookup 40 = some w :=
  ⟨⟨by decide, by decide, sampleFrames_wellFormed, by decide, by decide, by decide,
      by decide⟩,
    shared_reference 3
      { gc := Baker.sampleHeap, llvm_gc_root_chain := 8, frames := sampleFrames } [8, 16]
      8 2 16 0 { next := 16, map := { numRoots := 3 }, roots := [7, 0, 40] }
      { next := 0, map := { numRoots := 1 }, roots := [40] } 40
      (by decide) (by decide) sampleFrames_wellFormed (by decide)
      (by decide) rfl rfl (by decide) rfl rfl (by decide)⟩

/-! ## Method compiler -/

theorem and_15 (x : Nat) : x &&& 0x0F = x % 16 :=
  Nat.and_pow_two_sub_one_eq_mod x 4

theorem shiftRight_4 (x : Nat) : x >>> 4 = x / 16 :=
  Nat.shiftRight_eq_div_pow x 4

/-- C8: at an instruction start `p` inside the bytecodes, when the high nibble of
`byte[p]` is not `opExtended` the decoder yields opcode `byte[p] >> 4`, operand
`byte[p] & 0x0F` and continues at `p + 1`; when it is `opExtended` the decoder yields
opcode `byte[p] & 0x0F`, the whole next byte (a value below 256) as operand, and
continues at `p + 2`. -/
theorem decode_instruction (vm : SmalltalkVM) (byteCodes : List Byte) (p : Nat)
    (byte : Byte) (h : byteCodes[p]? = some byte) :
    (byte.val / 16 ≠ vm.opExtended →
      decode vm byteCodes p =
        some ({ high := byte.val / 16, low := byte.val % 16 }, p + 1)) ∧
    (byte.val / 16 = vm.opExtended →
      ∀ operand : Byte, byteCodes[p + 1]? = some operand →
        decode vm byteCodes p =
          some ({ high := byte.val % 16, low := operand.val }, p + 2) ∧
        operand.val ≤ 255) := by
  constructor
  · intro hne
    simp only [decode, h, and_15, shiftRight_4, if_neg hne]
  · intro heq operand hop
    refine ⟨?_, by have := operand.isLt; omega⟩
    simp only [decode, h, and_15, shiftRight_4, heq, if_true, hop]

/-- Witness for C8: the extended form of push-constant with operand 251, at offset 1. -/
theorem decode_instruction_witness :
    ([0x53, 0x05, 0xFB, 0x80] : List Byte)[1]? = some 0x05 ∧
    decode sampleVM [0x53, 0x05, 0xFB, 0x80] 1 = some ({ high := 5, low := 251 }, 3) :=
  ⟨rfl, ((decode_instruction sampleVM [0x53, 0x05, 0xFB, 0x80] 1 0x05 rfl).2 rfl
    0xFB rfl).1⟩

theorem markArgumentsLoop_not_done (fuel index : Nat) (st st1 : Compilation)
    (h : 0 < index) : markArgumentsLoop fuel index st ≠ Outcome.done st1 := by
  induction fuel generalizing st with
  | zero => simp [markArgumentsLoop]
  | succ fuel ih =>
    rw [markArgumentsLoop, if_pos h]
    cases st.popValue with
    | none => simp
    | some r => exact ih _

theorem compileInstruction_markArguments (vm : SmalltalkVM) (fuel n : Nat)
    (st : Compilation) :
    compileInstruction vm fuel { high := vm.opMarkArguments, low := n } st =
      match markArgumentsLoop fuel n st with
      | Outcome.done st1 => Outcome.done (st1.pushValue Value.null)
      | Outcome.exited status => Outcome.exited status
      | Outcome.undefined => Outcome.undefined
      | Outcome.outOfFuel => Outcome.outOfFuel := by
  have hd := vm.distinct
  simp only [List.nodup_cons, List.mem_cons, List.mem_singleton, not_or, List.not_mem_nil,
    not_false_eq_true, List.nodup_nil, and_true] at hd
  obtain ⟨⟨_, _, _, _, _, _, _, h1⟩, ⟨_, _, _, _, _, _, h2⟩, ⟨_, _, _, _, _, h3⟩,
    ⟨_, _, _, _, h4⟩, ⟨_, _, _, h5⟩, ⟨_, _, h6⟩, ⟨_, h7⟩, h8⟩ := hd
  unfold compileInstruction
  simp only [Ne.symm h1, Ne.symm h2, Ne.symm h3, Ne.symm h4, Ne.symm h5, Ne.symm h6,
    Ne.symm h7, Ne.symm h8, if_false, if_true]

theorem compileInstruction_markArguments_not_done (vm : SmalltalkVM) (fuel n : Nat)
    (st st1 : Compilation) (h : 0 < n) :
    compileInstruction vm fuel { high := vm.opMarkArguments, low := n } st ≠
      Outcome.done st1 := by
  rw [compileInstruction_markArguments]
  have hl := fun st2 => markArgumentsLoop_not_done fuel n st st2 h
  cases hm : markArgumentsLoop fuel n st with
  | done st2 => exact absurd hm (hl st2)
  | exited status => simp
  | undefined => simp
  | outOfFuel => simp

theorem compileLoop_not_done_of_step (vm : SmalltalkVM) (byteCodes : List Byte)
    (fuel : Nat) (st st1 : Compilation) (instruction : TInstruction) (next : Nat)
    (hlt : st.bytePointer < byteCodes.length)
    (hdec : decode vm byteCodes st.bytePointer = some (instruction, next))
    (hstep : ∀ st2, compileInstruction vm fuel instruction { st with bytePointer := next } ≠
      Outcome.done st2) :
    compileLoop vm byteCodes (fuel + 1) st ≠ Outcome.done st1 := by
  rw [compileLoop, if_pos hlt, hdec]
  simp only
  cases hm : compileInstruction vm fuel instruction { st with bytePointer := next } with
  | done st2 => exact absurd hm (hstep st2)
  | exited status => simp
  | undefined => simp
  | outOfFuel => simp

/-- C9 fails on the code: in the `opMarkArguments` case the loop `while (index > 0)`
never decrements `index`, and `arguments` is the null handle. For the bytecodes
push-argument 0, push-literal 0, mark-arguments 2 the compilation never completes,
whatever the step budget; with a budget of 10 the loop has popped both values and pops
the empty stack. No two-element array is built or pushed. -/
theorem mark_arguments_never_completes :
    (∀ fuel st1, compileMethod sampleVM fuel sampleMethod ≠ Outcome.done st1) ∧
    compileMethod sampleVM 10 sampleMethod = Outcome.undefined := by
  refine ⟨?_, by decide⟩
  intro fuel st1
  match fuel with
  | 0 =>
    have h : compileMethod sampleVM 0 sampleMethod = Outcome.outOfFuel := by decide
    rw [h]
    exact fun hc => Outcome.noConfusion hc
  | 1 =>
    have h : compileMethod sampleVM 1 sampleMethod = Outcome.outOfFuel := by decide
    rw [h]
    exact fun hc => Outcome.noConfusion hc
  | 2 =>
    have h : compileMethod sampleVM 2 sampleMethod = Outcome.outOfFuel := by decide
    rw [h]
    exact fun hc => Outcome.noConfusion hc
  | f + 3 =>
    have h2 : compileMethod sampleVM (f + 3) sampleMethod =
        compileLoop sampleVM sampleMethod.byteCodes (f + 1)
          { jitContext :=
              { (writePreamble (createFunction sampleMethod)).jitContext with
                valueStack :=
                  [Value.Load (Value.GEP (Value.GEP (Value.GEP Value.contextObject [1]) [3]) [0]),
                    Value.Load (Value.GEP (Value.GEP Value.contextObject [2, 0, 2, 0]) [0])] }
            builder := (writePreamble (createFunction sampleMethod)).builder ++
              [Instruction.GEP (Value.GEP Value.contextObject [2, 0, 2, 0]) [0],
                Instruction.Load (Value.GEP (Value.GEP Value.contextObject [2, 0, 2, 0]) [0]),
                Instruction.GEP (Value.GEP (Value.GEP Value.contextObject [1]) [3]) [0],
                Instruction.Load (Value.GEP (Value.GEP (Value.GEP Value.contextObject [1]) [3]) [0])]
            bytePointer := 2
            stderr := [] } := rfl
    rw [h2]
    exact compileLoop_not_done_of_step sampleVM _ f _ st1
      { high := sampleVM.opMarkArguments, low := 2 } 3 (by decide) rfl
      (fun st2 => compileInstruction_markArguments_not_done sampleVM f 2 _ st2 (by decide))

/-- C10: for an operand `k` from 0 to 9, compiling push-constant(k) completes, pushes
exactly one value on the compile-time operand stack and changes nothing else; the value
is the 32-bit constant `newInteger(k)`, the tagged small integer with the low bit set and
payload `k`. -/
theorem push_constant (vm : SmalltalkVM) (fuel k : Nat) (st : Compilation) (hk : k ≤ 9) :
    compileInstruction vm fuel { high := vm.opPushConstant, low := k } st =
      Outcome.done
        { st with
          jitContext :=
            { st.jitContext with
              valueStack := Value.getInt32 (newInteger k) :: st.jitContext.valueStack } } ∧
    newInteger k = 2 * k + 1 ∧ newInteger k % 2 = 1 ∧ newInteger k / 2 = k := by
  have hd := vm.distinct
  simp only [List.nodup_cons, List.mem_cons, List.mem_singleton, not_or, List.not_mem_nil,
    not_false_eq_true, List.nodup_nil, and_true] at hd
  obtain ⟨⟨_, _, _, h1, _⟩, ⟨_, _, h2, _⟩, ⟨_, h3, _⟩, ⟨h4, _⟩, _⟩ := hd
  have hn : newInteger k = 2 * k + 1 := by
    unfold newInteger
    interval_cases k <;> rfl
  refine ⟨?_, hn, by omega, by omega⟩
  unfold compileInstruction
  simp only [Ne.symm h1, Ne.symm h2, Ne.symm h3, Ne.symm h4, if_false, if_true, hk]
  rfl

/-- Witness for C10: push-constant 3 on the state the preamble leaves. -/
theorem push_constant_witness :
    3 ≤ 9 ∧
    compileInstruction sampleVM 0 { high := sampleVM.opPushConstant, low := 3 }
        (writePreamble "Object>>example") =
      Outcome.done
        { writePreamble "Object>>example" with
          jitContext :=
            { (writePreamble "Object>>example").jitContext with
              valueStack := [Value.getInt32 7] } } :=
  ⟨by decide, (push_constant sampleVM 0 3 (writePreamble "Object>>example") (by decide)).1⟩

theorem SmalltalkVM.ne_of_distinct (vm : SmalltalkVM) :
    (vm.opPushInstance ≠ vm.opPushArgument ∧ vm.opPushInstance ≠ vm.opPushTemporary ∧
      vm.opPushInstance ≠ vm.opPushLiteral ∧ vm.opPushInstance ≠ vm.opPushConstant ∧
      vm.opPushInstance ≠ vm.opPushBlock ∧ vm.opPushInstance ≠ vm.opAssignTemporary ∧
      vm.opPushInstance ≠ vm.opAssignInstance ∧ vm.opPushInstance ≠ vm.opMarkArguments) ∧
    (vm.opPushArgument ≠ vm.opPushTemporary ∧ vm.opPushArgument ≠ vm.opPushLiteral ∧
      vm.opPushArgument ≠ vm.opPushConstant ∧ vm.opPushArgument ≠ vm.opPushBlock ∧
      vm.opPushArgument ≠ vm.opAssignTemporary ∧ vm.opPushArgument ≠ vm.opAssignInstance ∧
      vm.opPushArgument ≠ vm.opMarkArguments) ∧
    (vm.opPushTemporary ≠ vm.opPushLiteral ∧ vm.opPushTemporary ≠ vm.opPushConstant ∧
      vm.opPushTemporary ≠ vm.opPushBlock ∧ vm.opPushTemporary ≠ vm.opAssignTemporary ∧
      vm.opPushTemporary ≠ vm.opAssignInstance ∧ vm.opPushTemporary ≠ vm.opMarkArguments) ∧
    (vm.opPushLiteral ≠ vm.opPushConstant ∧ vm.opPushLiteral ≠ vm.opPushBlock ∧
      vm.opPushLiteral ≠ vm.opAssignTemporary ∧ vm.opPushLiteral ≠ vm.opAssignInstance ∧
      vm.opPushLiteral ≠ vm.opMarkArguments) ∧
    (vm.opPushConstant ≠ vm.opPushBlock ∧ vm.opPushConstant ≠ vm.opAssignTemporary ∧
      vm.opPushConstant ≠ vm.opAssignInstance ∧ vm.opPushConstant ≠ vm.opMarkArguments) ∧
    (vm.opPushBlock ≠ vm.opAssignTemporary ∧ vm.opPushBlock ≠ vm.opAssignInstance ∧
      vm.opPushBlock ≠ vm.opMarkArguments) ∧
    (vm.opAssignTemporary ≠ vm.opAssignInstance ∧
      vm.opAssignTemporary ≠ vm.opMarkArguments) ∧
    vm.opAssignInstance ≠ vm.opMarkArguments := by
  have hd := vm.distinct
  simp only [List.nodup_cons, List.mem_cons, List.mem_singleton, not_or, List.not_mem_nil,
    not_false_eq_true, List.nodup_nil, and_true] at hd
  exact hd

theorem compileInstruction_pushConstant_unknown (vm : SmalltalkVM) (fuel k : Nat)
    (st : Compilation) (hk : 9 < k) :
    compileInstruction vm fuel { high := vm.opPushConstant, low := k } st =
      Outcome.done
        ({ st with stderr := st.stderr ++ [Diagnostic.unknownPushConstant k] }.pushValue
          Value.null) := by
  obtain ⟨⟨_, _, _, h1, _⟩, ⟨_, _, h2, _⟩, ⟨_, h3, _⟩, ⟨h4, _⟩, _⟩ := vm.ne_of_distinct
  unfold compileInstruction
  simp only [Ne.symm h1, Ne.symm h2, Ne.symm h3, Ne.symm h4, if_false, if_true,
    Nat.not_le.mpr hk]

/-- C11 fails on the code: for a push-constant operand above 9 the `default` label only
writes a message to `stderr`; `constantValue` is still the null handle and is pushed, and
the loop goes on. The method of the single instruction push-constant 10 compiles to
completion, with the null handle on the operand stack and one message on `stderr`. -/
theorem unknown_constant_is_compiled :
    compileMethod sampleVM 2 { klass := "Object", name := "example", byteCodes := [0x5A] } =
      Outcome.done
        { writePreamble "Object>>example" with
          jitContext :=
            { (writePreamble "Object>>example").jitContext with valueStack := [Value.null] }
          bytePointer := 1
          stderr := [Diagnostic.unknownPushConstant 10] } := by
  decide

/-- C14 fails on the code: the preamble sets `self` to the address of argument slot 0
(a GEP of `arguments`; the slot is not loaded), so the code emitted for push-instance(i)
right after the preamble is a GEP from that address and a load from it. The address
loaded from is the address of argument slot `i`, the one push-argument(i) loads from;
the emitted code has no load through `GEP(arguments, 0)` whose result, the receiver
reference, could serve as the base of the field address. -/
theorem push_instance_loads_argument_slot (vm : SmalltalkVM) (fuel i : Nat)
    (function : String) (slot : Nat) (root : Value → Nat) :
    compileInstruction vm fuel { high := vm.opPushInstance, low := i }
        (writePreamble function) =
      Outcome.done
        { writePreamble function with
          jitContext :=
            { (writePreamble function).jitContext with
              valueStack :=
                [Value.Load (Value.GEP
                  (Value.GEP (Value.GEP Value.contextObject [2, 0, 2, 0]) [0]) [i])] }
          builder := (writePreamble function).builder ++
            [Instruction.GEP (Value.GEP (Value.GEP Value.contextObject [2, 0, 2, 0]) [0]) [i],
              Instruction.Load (Value.GEP
                (Value.GEP (Value.GEP Value.contextObject [2, 0, 2, 0]) [0]) [i])] } ∧
    compileInstruction vm fuel { high := vm.opPushArgument, low := i }
        (writePreamble function) =
      Outcome.done
        { writePreamble function with
          jitContext :=
            { (writePreamble function).jitContext with
              valueStack :=
                [Value.Load (Value.GEP (Value.GEP Value.contextObject [2, 0, 2, 0]) [i])] }
          builder := (writePreamble function).builder ++
            [Instruction.GEP (Value.GEP Value.contextObject [2, 0, 2, 0]) [i],
              Instruction.Load (Value.GEP (Value.GEP Value.contextObject [2, 0, 2, 0]) [i])] } ∧
    Value.address slot root
        (Value.GEP (Value.GEP (Value.GEP Value.contextObject [2, 0, 2, 0]) [0]) [i]) =
      Value.address slot root (Value.GEP (Value.GEP Value.contextObject [2, 0, 2, 0]) [i]) ∧
    Instruction.Load (Value.GEP (Value.GEP Value.contextObject [2, 0, 2, 0]) [0]) ∉
      (writePreamble function).builder ++
        [Instruction.GEP (Value.GEP (Value.GEP Value.contextObject [2, 0, 2, 0]) [0]) [i],
          Instruction.Load (Value.GEP
            (Value.GEP (Value.GEP Value.contextObject [2, 0, 2, 0]) [0]) [i])] := by
  obtain ⟨⟨h1, _⟩, _⟩ := vm.ne_of_distinct
  refine ⟨?_, ?_, ?_, ?_⟩
  · simp [compileInstruction, writePreamble, Compilation.CreateGEP, Compilation.CreateLoad,
      Compilation.pushValue, TJITContext.pushValue]
  · simp [compileInstruction, Ne.symm h1, writePreamble, Compilation.CreateGEP,
      Compilation.CreateLoad, Compilation.pushValue, TJITContext.pushValue]
  · simp [Value.address]
  · simp [writePreamble]

/-- C15 fails on the code: the `opAssignInstance` case pops the value and emits a GEP
and a store, and nothing else; the write barrier is the `TODO analog of checkRoot()`.
After the preamble and a pushed value `v`, the builder has received exactly these two
instructions. -/
theorem assign_instance_emits_store_only (vm : SmalltalkVM) (fuel i : Nat)
    (function : String) (v : Value) :
    compileInstruction vm fuel { high := vm.opAssignInstance, low := i }
        ((writePreamble function).pushValue v) =
      Outcome.done
        { writePreamble function with
          builder := (writePreamble function).builder ++
            [Instruction.GEP (Value.GEP (Value.GEP Value.contextObject [2, 0, 2, 0]) [0]) [i],
              Instruction.Store v (Value.GEP
                (Value.GEP (Value.GEP Value.contextObject [2, 0, 2, 0]) [0]) [i])] } := by
  obtain ⟨⟨_, _, _, _, _, _, h1, _⟩, ⟨_, _, _, _, _, h2, _⟩, ⟨_, _, _, _, h3, _⟩,
    ⟨_, _, _, h4, _⟩, ⟨_, _, h5, _⟩, ⟨_, h6, _⟩, ⟨h7, _⟩, _⟩ := vm.ne_of_distinct
  simp [compileInstruction, Ne.symm h1, Ne.symm h2, Ne.symm h3, Ne.symm h4, Ne.symm h5,
    Ne.symm h6, Ne.symm h7, writePreamble, Compilation.CreateGEP, Compilation.CreateStore,
    Compilation.pushValue, Compilation.popValue, TJITContext.pushValue,
    TJITContext.popValue]

theorem markArgumentsLoop_stuck (fuel index : Nat) (st : Compilation) (h : 0 < index) :
    markArgumentsLoop fuel index st = Outcome.outOfFuel ∨
      markArgumentsLoop fuel index st = Outcome.undefined := by
  induction fuel generalizing st with
  | zero => left; rfl
  | succ fuel ih =>
    rw [markArgumentsLoop, if_pos h]
    cases st.popValue with
    | none => right; rfl
    | some r => exact ih _

theorem compileInstruction_markArguments_stuck (vm : SmalltalkVM) (fuel n : Nat)
    (st : Compilation) (h : 0 < n) :
    compileInstruction vm fuel { high := vm.opMarkArguments, low := n } st =
        Outcome.outOfFuel ∨
      compileInstruction vm fuel { high := vm.opMarkArguments, low := n } st =
        Outcome.undefined := by
  rw [compileInstruction_markArguments]
  rcases markArgumentsLoop_stuck fuel n st h with h1 | h1 <;> rw [h1]
  · left; rfl
  · right; rfl

theorem compileLoop_stuck_of_step (vm : SmalltalkVM) (byteCodes : List Byte)
    (fuel : Nat) (st : Compilation) (instruction : TInstruction) (next : Nat)
    (hlt : st.bytePointer < byteCodes.length)
    (hdec : decode vm byteCodes st.bytePointer = some (instruction, next))
    (hstep : compileInstruction vm fuel instruction { st with bytePointer := next } =
        Outcome.outOfFuel ∨
      compileInstruction vm fuel instruction { st with bytePointer := next } =
        Outcome.undefined) :
    compileLoop vm byteCodes (fuel + 1) st = Outcome.outOfFuel ∨
      compileLoop vm byteCodes (fuel + 1) st = Outcome.undefined := by
  rw [compileLoop, if_pos hlt, hdec]
  simp only
  rcases hstep with h1 | h1 <;> rw [h1]
  · left; rfl
  · right; rfl

theorem compileLoop_step_done (vm : SmalltalkVM) (byteCodes : List Byte)
    (fuel : Nat) (st st1 : Compilation) (instruction : TInstruction) (next : Nat)
    (hlt : st.bytePointer < byteCodes.length)
    (hdec : decode vm byteCodes st.bytePointer = some (instruction, next))
    (hstep : compileInstruction vm fuel instruction { st with bytePointer := next } =
      Outcome.done st1) :
    compileLoop vm byteCodes (fuel + 1) st = compileLoop vm byteCodes fuel st1 := by
  rw [compileLoop, if_pos hlt, hdec]
  simp only
  rw [hstep]

theorem compileMethod_stuck_example (rest : List Byte) (fuel : Nat) :
    compileMethod sampleVM fuel
        { klass := "Object", name := "example", byteCodes := 0x20 :: 0x81 :: rest } =
      Outcome.outOfFuel ∨
    compileMethod sampleVM fuel
        { klass := "Object", name := "example", byteCodes := 0x20 :: 0x81 :: rest } =
      Outcome.undefined := by
  have hd0 : decode sampleVM (0x20 :: 0x81 :: rest) 0 = some ({ high := 2, low := 0 }, 1) := by
    unfold decode
    simp only [List.getElem?_cons_zero]
    rfl
  have hd1 : decode sampleVM (0x20 :: 0x81 :: rest) 1 =
      some ({ high := sampleVM.opMarkArguments, low := 1 }, 2) := by
    unfold decode
    simp only [List.getElem?_cons_succ, List.getElem?_cons_zero]
    rfl
  have hstep : ∀ f, compileMethod sampleVM (f + 1)
      { klass := "Object", name := "example", byteCodes := 0x20 :: 0x81 :: rest } =
      compileLoop sampleVM (0x20 :: 0x81 :: rest) f
        { jitContext :=
            { (writePreamble "Object>>example").jitContext with
              valueStack :=
                [Value.Load (Value.GEP (Value.GEP Value.contextObject [2, 0, 2, 0]) [0])] }
          builder := (writePreamble "Object>>example").builder ++
            [Instruction.GEP (Value.GEP Value.contextObject [2, 0, 2, 0]) [0],
              Instruction.Load (Value.GEP (Value.GEP Value.contextObject [2, 0, 2, 0]) [0])]
          bytePointer := 1
          stderr := [] } := by
    intro f
    exact compileLoop_step_done sampleVM (0x20 :: 0x81 :: rest) f
      (writePreamble "Object>>example") _ { high := 2, low := 0 } 1
      (by simp [writePreamble]) hd0 rfl
  match fuel with
  | 0 => left; rfl
  | 1 => left; rw [hstep 0]; rfl
  | f + 2 =>
    rw [hstep (f + 1)]
    exact compileLoop_stuck_of_step sampleVM _ f _
      { high := sampleVM.opMarkArguments, low := 1 } 2 (by simp) hd1
      (compileInstruction_markArguments_stuck sampleVM f 1 _ (by decide))

/-- C17 fails on the code: the loop of the `opMarkArguments` case never decrements
`index`, so for mark-arguments(n) with n > 0 the loop body of `compileMethod` does not
finish. For the bytecodes push-argument 0, mark-arguments 1 no step budget lets the
compilation complete or exit: it is still inside that loop when the budget runs out, or
the loop has emptied the operand stack and pops it once more. -/
theorem mark_arguments_body_never_finishes :
    (∀ fuel,
      compileMethod sampleVM fuel
          { klass := "Object", name := "example", byteCodes := [0x20, 0x81] } =
        Outcome.outOfFuel ∨
      compileMethod sampleVM fuel
          { klass := "Object", name := "example", byteCodes := [0x20, 0x81] } =
        Outcome.undefined) ∧
    compileMethod sampleVM 10
        { klass := "Object", name := "example", byteCodes := [0x20, 0x81] } =
      Outcome.undefined :=
  ⟨fun fuel => compileMethod_stuck_example [] fuel, by decide⟩

/-- C18 fails on the code: the loop condition guards only the first read of an
iteration. When the last byte has `opExtended` in its high nibble the decoder reads the
operand at index `byteCount` without any check; no error is raised. For the one-byte
stream `0x05` the reads are at indices 0 and 1, and the compilation ends in undefined
behaviour, not in an exit. -/
theorem truncated_operand_is_read :
    decodeReads sampleVM [0x05] 0 = [0, 1] ∧ ([0x05] : List Byte).length = 1 ∧
    decode sampleVM [0x05] 0 = none ∧
    ∀ fuel,
      compileMethod sampleVM (fuel + 1)
          { klass := "Object", name := "example", byteCodes := [0x05] } =
        Outcome.undefined := by
  refine ⟨by decide, rfl, by decide, ?_⟩
  intro fuel
  rfl

theorem decode_eq_none_iff (vm : SmalltalkVM) (byteCodes : List Byte) (p : Nat) :
    decode vm byteCodes p = none ↔ ∃ i ∈ decodeReads vm byteCodes p, byteCodes.length ≤ i := by
  unfold decode decodeReads
  cases h0 : byteCodes[p]? with
  | none =>
    have hp : byteCodes.length ≤ p := List.getElem?_eq_none_iff.mp h0
    simp [hp]
  | some byte =>
    have hp : p < byteCodes.length := by
      by_contra hge
      rw [List.getElem?_eq_none_iff.mpr (Nat.le_of_not_lt hge)] at h0
      cases h0
    simp only
    split
    · cases h1 : byteCodes[p + 1]? with
      | none =>
        have hp1 : byteCodes.length ≤ p + 1 := List.getElem?_eq_none_iff.mp h1
        simp [hp1]
      | some operand =>
        have hp1 : p + 1 < byteCodes.length := by
          by_contra hge
          rw [List.getElem?_eq_none_iff.mpr (Nat.le_of_not_lt hge)] at h1
          cases h1
        simp only [List.mem_cons, List.mem_singleton, List.not_mem_nil, or_false,
          exists_eq_or_imp, exists_eq_left]
        constructor
        · intro h; cases h
        · intro h; omega
    · simp only [List.mem_singleton, exists_eq_left]
      constructor
      · intro h; cases h
      · intro h; omega

theorem decode_take (vm : SmalltalkVM) (byteCodes : List Byte) (j p : Nat)
    (x : TInstruction × Nat) (h : decode vm (byteCodes.take j) p = some x) :
    decode vm byteCodes p = some x := by
  have hget : ∀ (q : Nat) (b : Byte), (byteCodes.take j)[q]? = some b →
      byteCodes[q]? = some b := by
    intro q b hq
    rw [List.getElem?_take] at hq
    split at hq
    · exact hq
    · cases hq
  unfold decode at h ⊢
  cases h0 : (byteCodes.take j)[p]? with
  | none => rw [h0] at h; cases h
  | some byte =>
    rw [h0] at h
    rw [hget p byte h0]
    simp only at h ⊢
    split
    · next hext =>
      rw [if_pos hext] at h
      cases h1 : (byteCodes.take j)[p + 1]? with
      | none => rw [h1] at h; cases h
      | some operand =>
        rw [h1] at h
        rw [hget (p + 1) operand h1]
        exact h
    · next hext =>
      rw [if_neg hext] at h
      exact h

theorem compileInstruction_unhandled (vm : SmalltalkVM) (fuel : Nat)
    (instruction : TInstruction) (st : Compilation)
    (h : instruction.high ∉ vm.handled) :
    compileInstruction vm fuel instruction st = Outcome.exited 1 := by
  simp only [SmalltalkVM.handled, List.mem_cons, List.mem_singleton, List.not_mem_nil,
    or_false, not_or] at h
  obtain ⟨h1, h2, h3, h4, h5, h6, h7, h8, h9⟩ := h
  unfold compileInstruction
  simp only [h1, h2, h3, h4, h5, h6, h7, h8, h9, if_false]

theorem compileLoop_abort_after_head (vm : SmalltalkVM) (byteCodes : List Byte)
    (j : Nat) (st : Compilation) (instruction : TInstruction) (next : Nat)
    (hj : st.bytePointer = j) (hlt : j < byteCodes.length)
    (hdec : decode vm byteCodes j = some (instruction, next))
    (hun : instruction.high ∉ vm.handled) :
    ∀ (fuel : Nat) (st0 : Compilation),
      compileLoop vm (byteCodes.take j) fuel st0 = Outcome.done st →
      compileLoop vm byteCodes fuel st0 = Outcome.exited 1 := by
  intro fuel
  induction fuel with
  | zero => intro st0 h; simp [compileLoop] at h
  | succ f ih =>
    intro st0 h
    have hlen : (byteCodes.take j).length = j := by
      rw [List.length_take]
      omega
    rw [compileLoop, hlen] at h
    by_cases hbp : st0.bytePointer < j
    · rw [if_pos hbp] at h
      cases hd : decode vm (byteCodes.take j) st0.bytePointer with
      | none => rw [hd] at h; simp at h
      | some x =>
        obtain ⟨i0, nx⟩ := x
        rw [hd] at h
        simp only at h
        rw [compileLoop, if_pos (by omega), decode_take vm byteCodes j _ _ hd]
        simp only
        cases hc : compileInstruction vm f i0 { st0 with bytePointer := nx } with
        | done st1 =>
          rw [hc] at h
          simp only at h
          exact ih st1 h
        | exited status => rw [hc] at h; simp at h
        | undefined => rw [hc] at h; simp at h
        | outOfFuel => rw [hc] at h; simp at h
    · rw [if_neg hbp] at h
      have hst : st0 = st := by simpa using h
      subst hst
      rw [compileLoop, if_pos (by omega), hj, hdec]
      simp only
      rw [compileInstruction_unhandled vm f instruction _ hun]

/-- C12, as stated, fails: in the bytecodes push-argument 0, mark-arguments 1, `0xF0`
the first opcode outside the handled set (15) is the third instruction, but the
compilation never gets there and never exits, whatever the step budget: the second
instruction does not finish. -/
theorem unknown_opcode_counterexample :
    decode sampleVM [0x20, 0x81, 0xF0] 2 = some ({ high := 15, low := 0 }, 3) ∧
    15 ∉ sampleVM.handled ∧
    ¬ ∃ fuel status,
      compileMethod sampleVM fuel
          { klass := "Object", name := "example", byteCodes := [0x20, 0x81, 0xF0] } =
        Outcome.exited status := by
  refine ⟨by decide, by decide, ?_⟩
  rintro ⟨fuel, status, h⟩
  rcases compileMethod_stuck_example [0xF0] fuel with h1 | h1 <;> rw [h1] at h <;> cases h

/-- C12, amended: when the bytecodes before offset `j` compile to completion and the
instruction at `j` decodes to an opcode outside the handled set, `compileMethod` ends
with `exit(1)` at that instruction: nothing after it is decoded or compiled and no
function is returned. -/
theorem unknown_opcode_aborts (vm : SmalltalkVM) (method : TMethod) (fuel j : Nat)
    (st : Compilation) (instruction : TInstruction) (next : Nat)
    (hbefore : compileMethod vm fuel { method with byteCodes := method.byteCodes.take j } =
      Outcome.done st)
    (hj : st.bytePointer = j) (hlt : j < method.byteCodes.length)
    (hdec : decode vm method.byteCodes j = some (instruction, next))
    (hun : instruction.high ∉ vm.handled) :
    compileMethod vm fuel method = Outcome.exited 1 :=
  compileLoop_abort_after_head vm method.byteCodes j st instruction next hj hlt hdec hun
    fuel _ hbefore

/-- Witness for C12: push-constant 3 followed by the unhandled opcode 15. -/
theorem unknown_opcode_aborts_witness :
    (compileMethod sampleVM 3
        { klass := "Object", name := "example", byteCodes := ([0x53, 0xF0] : List Byte).take 1 } =
        Outcome.done
          { writePreamble "Object>>example" with
            jitContext :=
              { (writePreamble "Object>>example").jitContext with
                valueStack := [Value.getInt32 7] }
            bytePointer := 1 } ∧
      1 < ([0x53, 0xF0] : List Byte).length ∧
      decode sampleVM [0x53, 0xF0] 1 = some ({ high := 15, low := 0 }, 2) ∧
      15 ∉ sampleVM.handled) ∧
    compileMethod sampleVM 3
        { klass := "Object", name := "example", byteCodes := [0x53, 0xF0] } =
      Outcome.exited 1 :=
  ⟨⟨by decide, by decide, by decide, by decide⟩,
    unknown_opcode_aborts sampleVM
      { klass := "Object", name := "example", byteCodes := [0x53, 0xF0] } 3 1
      { writePreamble "Object>>example" with
        jitContext :=
          { (writePreamble "Object>>example").jitContext with
            valueStack := [Value.getInt32 7] }
        bytePointer := 1 }
      { high := 15, low := 0 } 2 (by decide) rfl (by decide) (by decide) (by decide)⟩

/-! ## Native dispatch: the arguments handed to the routine -/

theorem impl.Indexes_eq (VM : Ty) (Args : List ArgTy) :
    impl.VMArgumentAnalyzer VM Args =
      if leadingVM VM Args = true then List.range (declaredArity VM Args + 1)
      else (List.range (declaredArity VM Args)).map (fun s => s + 1) := by
  unfold impl.VMArgumentAnalyzer leadingVM declaredArity impl.seq.add
  split
  · next T rest =>
    by_cases hT : T = VM
    · simp [hT, impl.gens_eq]
    · simp [hT, impl.gens_eq]
  · next hne =>
    cases Args with
    | nil => simp [impl.gens_eq]
    | cons A rest =>
      cases A with
      | ptr T => exact absurd rfl (hne T rest)
      | integer => simp [impl.gens_eq]

theorem impl.Indexes_length (VM : Ty) (Args : List ArgTy) :
    (impl.VMArgumentAnalyzer VM Args).length = Args.length := by
  unfold impl.VMArgumentAnalyzer impl.seq.add
  split
  · split <;> simp [impl.gens_eq]
  · simp [impl.gens_eq]

theorem impl.Indexes_getElem? (VM : Ty) (Args : List ArgTy) (j : Nat)
    (hj : j < Args.length) :
    (impl.VMArgumentAnalyzer VM Args)[j]? =
      some (if leadingVM VM Args = true then j else j + 1) := by
  have hlen := impl.Indexes_length VM Args
  have hk : leadingVM VM Args = true → declaredArity VM Args + 1 = Args.length := by
    intro hl
    rw [impl.Indexes_eq, if_pos hl, List.length_range] at hlen
    exact hlen
  have hk2 : ¬ leadingVM VM Args = true → declaredArity VM Args = Args.length := by
    intro hl
    rw [impl.Indexes_eq, if_neg hl, List.length_map, List.length_range] at hlen
    exact hlen
  rw [impl.Indexes_eq]
  by_cases hl : leadingVM VM Args = true
  · rw [if_pos hl, if_pos hl, List.getElem?_range (by rw [hk hl]; exact hj)]
  · rw [if_neg hl, if_neg hl, List.getElem?_map,
      List.getElem?_range (by rw [hk2 hl]; exact hj)]
    rfl

theorem impl.Indexes_nodup (VM : Ty) (Args : List ArgTy) :
    (impl.VMArgumentAnalyzer VM Args).Nodup := by
  rw [impl.Indexes_eq]
  split
  · exact List.nodup_range _
  · exact List.Nodup.map (fun a b h => by simpa using h) (List.nodup_range _)

theorem impl.extractAll_ok_spec (vm : Engine) (args : List Word)
    (l : List (ArgTy × Nat)) (as : List Arg)
    (h : (impl.extractAll vm args l).2 = Except.ok as) :
    as.length = l.length ∧
    ∀ (j : Nat) (x : ArgTy × Nat), l[j]? = some x →
      ∃ a, as[j]? = some a ∧ (impl.ArgumentExtractor vm args x.1 x.2).2 = Except.ok a := by
  induction l generalizing as with
  | nil =>
    have has : as = [] := by
      simp only [impl.extractAll, Except.ok.injEq] at h
      exact h.symm
    subst has
    exact ⟨rfl, fun j x hx => by simp at hx⟩
  | cons y rest ih =>
    obtain ⟨B, k⟩ := y
    rw [impl.extractAll_cons_snd] at h
    cases hx : (impl.ArgumentExtractor vm args B k).2 with
    | error e => rw [hx] at h; simp at h
    | ok a0 =>
      rw [hx] at h
      simp only at h
      cases hr : (impl.extractAll vm args rest).2 with
      | error e => rw [hr] at h; simp at h
      | ok as0 =>
        rw [hr] at h
        simp only [Except.ok.injEq] at h
        subst h
        obtain ⟨hl, hall⟩ := ih as0 hr
        refine ⟨by simp [hl], ?_⟩
        intro j x hjx
        cases j with
        | zero =>
          simp only [List.getElem?_cons_zero, Option.some.injEq] at hjx
          subst hjx
          exact ⟨a0, by simp, hx⟩
        | succ i =>
          simp only [List.getElem?_cons_succ] at hjx
          obtain ⟨a, ha1, ha2⟩ := hall i x hjx
          exact ⟨a, by simpa using ha1, ha2⟩

theorem impl.ArgumentExtractor_events (vm : Engine) (args : List Word) (A : ArgTy)
    (Index i : Nat) (h : Event.getField i ∈ (impl.ArgumentExtractor vm args A Index).1) :
    i = Index := by
  unfold impl.ArgumentExtractor at h
  cases A with
  | ptr T =>
    simp only at h
    split at h
    · simp at h
    · revert h
      cases getField args Index with
      | none => intro h; simpa using h
      | some object =>
        simp only
        cases vm.checked_cast T object <;> (intro h; simpa using h)
  | integer =>
    simp only at h
    revert h
    cases getField args Index with
    | none => intro h; simpa using h
    | some object =>
      simp only
      cases TInteger.ofObject object <;> (intro h; simpa using h)

theorem impl.extractAll_events (vm : Engine) (args : List Word)
    (l : List (ArgTy × Nat)) (i : Nat)
    (h : Event.getField i ∈ (impl.extractAll vm args l).1) : ∃ x ∈ l, x.2 = i := by
  induction l with
  | nil => simp [impl.extractAll] at h
  | cons y rest ih =>
    obtain ⟨B, k⟩ := y
    rw [impl.extractAll_cons_fst] at h
    cases hx : (impl.ArgumentExtractor vm args B k).2 with
    | error e =>
      rw [hx] at h
      simp only at h
      exact ⟨(B, k), List.mem_cons_self _ _,
        (impl.ArgumentExtractor_events vm args B k i h).symm⟩
    | ok a =>
      rw [hx] at h
      simp only [List.mem_append] at h
      rcases h with h | h
      · exact ⟨(B, k), List.mem_cons_self _ _,
          (impl.ArgumentExtractor_events vm args B k i h).symm⟩
      · obtain ⟨x, hx1, hx2⟩ := ih h
        exact ⟨x, List.mem_cons_of_mem _ hx1, hx2⟩

theorem TNativeMethodPointer.call_ok (p : TNativeMethodPointer) (vm : Engine)
    (args : List Word) (Indexes : List Nat) (r : Word)
    (h : (p.call vm args Indexes).2 = Except.ok r) :
    ∃ object receiver as, getField args 0 = some object ∧
      vm.checked_cast p.T object = Except.ok receiver ∧
      (impl.extractAll vm args (p.Args.zip Indexes)).2 = Except.ok as ∧
      (p.call vm args Indexes).1 =
        Event.getField 0 :: ((impl.extractAll vm args (p.Args.zip Indexes)).1 ++
          [Event.invoke receiver as]) := by
  rw [TNativeMethodPointer.call_snd] at h
  rw [TNativeMethodPointer.call_fst]
  revert h
  cases getField args 0 with
  | none => intro h; simp at h
  | some object =>
    simp only
    cases hc : vm.checked_cast p.T object with
    | error what => intro h; simp at h
    | ok receiver =>
      simp only
      cases hr : (impl.extractAll vm args (p.Args.zip Indexes)).2 with
      | error e => intro h; simp at h
      | ok as =>
        intro _
        exact ⟨object, receiver, as, rfl, hc, rfl, rfl⟩

theorem leadingVM_length (VM : Ty) (Args : List ArgTy) :
    Args.length = if leadingVM VM Args = true then declaredArity VM Args + 1
      else declaredArity VM Args := by
  have h := impl.Indexes_length VM Args
  rw [impl.Indexes_eq] at h
  split at h
  · next hl => rw [if_pos hl, ← h, List.length_range]
  · next hl => rw [if_neg hl, ← h, List.length_map, List.length_range]

theorem impl.ArgumentExtractor_ok_spec (vm : Engine) (args : List Word) (A : ArgTy)
    (Index : Nat) (a : Arg) (h : (impl.ArgumentExtractor vm args A Index).2 = Except.ok a) :
    (A = ArgTy.ptr vm.VM ∧ Index = 0 ∧ a = Arg.vm) ∨
      ∃ object, args[Index]? = some object ∧ convertedFrom vm A object a := by
  unfold impl.ArgumentExtractor at h
  cases A with
  | ptr T =>
    simp only at h
    split at h
    · next hvm =>
      left
      simp only [Except.ok.injEq] at h
      exact ⟨by rw [hvm.1], hvm.2, h.symm⟩
    · right
      revert h
      unfold getField
      cases args[Index]? with
      | none => intro h; simp at h
      | some object =>
        simp only
        cases hc : vm.checked_cast T object with
        | error what => intro h; simp at h
        | ok ptr =>
          intro h
          simp only [Except.ok.injEq] at h
          exact ⟨object, rfl, ptr, hc, h.symm⟩
  | integer =>
    right
    simp only at h
    revert h
    unfold getField
    cases args[Index]? with
    | none => intro h; simp at h
    | some object =>
      simp only
      unfold TInteger.ofObject
      by_cases htag : object % 2 = 1
      · rw [if_pos htag]
        intro h
        simp only [Except.ok.injEq] at h
        exact ⟨object, rfl, htag, h.symm⟩
      · rw [if_neg htag]
        intro h
        simp at h

theorem TNativeMethodPointer.operator_events_in_bounds (p : TNativeMethodPointer)
    (vm : Engine) (args : List Word) (i : Nat)
    (hi : Event.getField i ∈ (p.operator vm args).1) : i < args.length := by
  by_cases harity : args.length = declaredArity vm.VM p.Args + 1
  · rw [TNativeMethodPointer.operator_of_arity p vm args harity,
      TNativeMethodPointer.call_fst] at hi
    have hex : ∀ j, Event.getField j ∈ (impl.extractAll vm args
        (p.Args.zip (impl.VMArgumentAnalyzer vm.VM p.Args))).1 → j < args.length := by
      intro j hj
      obtain ⟨x, hx1, hx2⟩ := impl.extractAll_events vm args _ j hj
      have := impl.Indexes_in_bounds vm p args harity x hx1
      omega
    revert hi
    cases getField args 0 with
    | none =>
      intro hi
      simp only [List.mem_singleton, Event.getField.injEq] at hi
      omega
    | some object =>
      simp only
      cases vm.checked_cast p.T object with
      | error what =>
        intro hi
        simp only [List.mem_singleton, Event.getField.injEq] at hi
        omega
      | ok receiver =>
        simp only
        cases (impl.extractAll vm args
            (p.Args.zip (impl.VMArgumentAnalyzer vm.VM p.Args))).2 with
        | error e =>
          intro hi
          simp only [List.mem_cons, Event.getField.injEq] at hi
          rcases hi with hi | hi
          · omega
          · exact hex i hi
        | ok as =>
          intro hi
          simp only [List.mem_cons, List.mem_append, List.mem_singleton,
            Event.getField.injEq, List.not_mem_nil, or_false] at hi
          rcases hi with hi | hi | hi
          · omega
          · exact hex i hi
          · cases hi
  · rw [operator_of_bad_arity p vm args harity] at hi
    simp at hi

/-- C16: the index sequence is 1..k, or 0..k when the signature starts with `VM*`; it
has no duplicates and every slot 1..k is the index of a parameter; whatever the
dispatch, every index read is below `args.getSize()`. In a successful dispatch the
routine is invoked exactly once, on the strict cast of `args[0]` to the receiver type,
with one argument per declared parameter: a leading `VM*` parameter is bound to the
engine handle, and parameter `A_j` is `args[j]` converted to its type (the strict cast
of the slot for `T*`, the tagged small integer in the slot for `TInteger`). -/
theorem dispatch_arguments (p : TNativeMethodPointer) (vm : Engine) (args : List Word) :
    impl.VMArgumentAnalyzer vm.VM p.Args =
      (if leadingVM vm.VM p.Args = true then List.range (declaredArity vm.VM p.Args + 1)
        else (List.range (declaredArity vm.VM p.Args)).map (fun s => s + 1)) ∧
    (impl.VMArgumentAnalyzer vm.VM p.Args).Nodup ∧
    (∀ slot, 1 ≤ slot → slot ≤ declaredArity vm.VM p.Args →
      ∃ j, j < p.Args.length ∧ (impl.VMArgumentAnalyzer vm.VM p.Args)[j]? = some slot) ∧
    (∀ i, Event.getField i ∈ (p.operator vm args).1 → i < args.length) ∧
    ∀ r, (p.operator vm args).2 = Except.ok r →
      ∃ object receiver as, args[0]? = some object ∧
        vm.checked_cast p.T object = Except.ok receiver ∧
        (p.operator vm args).1.filter Event.isInvoke = [Event.invoke receiver as] ∧
        as.length = p.Args.length ∧
        (leadingVM vm.VM p.Args = true →
          as[0]? = some Arg.vm ∧
          ∀ (j : Nat) (A : ArgTy), 1 ≤ j → p.Args[j]? = some A →
            ∃ slotValue a, args[j]? = some slotValue ∧ as[j]? = some a ∧
              convertedFrom vm A slotValue a) ∧
        (leadingVM vm.VM p.Args = false →
          ∀ (j : Nat) (A : ArgTy), p.Args[j]? = some A →
            ∃ slotValue a, args[j + 1]? = some slotValue ∧ as[j]? = some a ∧
              convertedFrom vm A slotValue a) := by
  have hAlen := leadingVM_length vm.VM p.Args
  refine ⟨impl.Indexes_eq vm.VM p.Args, impl.Indexes_nodup vm.VM p.Args, ?_,
    TNativeMethodPointer.operator_events_in_bounds p vm args, ?_⟩
  · intro slot h1 hk
    by_cases hl : leadingVM vm.VM p.Args = true
    · rw [if_pos hl] at hAlen
      have hj : slot < p.Args.length := by omega
      refine ⟨slot, hj, ?_⟩
      rw [impl.Indexes_getElem? vm.VM p.Args slot hj, if_pos hl]
    · rw [if_neg hl] at hAlen
      have hj : slot - 1 < p.Args.length := by omega
      refine ⟨slot - 1, hj, ?_⟩
      rw [impl.Indexes_getElem? vm.VM p.Args (slot - 1) hj, if_neg hl]
      exact congrArg some (by omega)
  · intro r h
    have harity : args.length = declaredArity vm.VM p.Args + 1 := by
      by_contra hne
      rw [operator_of_bad_arity p vm args hne] at h
      simp at h
    rw [TNativeMethodPointer.operator_of_arity p vm args harity] at h ⊢
    obtain ⟨object, receiver, as, h0, hc, hex, hev⟩ :=
      TNativeMethodPointer.call_ok p vm args _ r h
    obtain ⟨hlen, hall⟩ := impl.extractAll_ok_spec vm args _ as hex
    have hzlen : (p.Args.zip (impl.VMArgumentAnalyzer vm.VM p.Args)).length =
        p.Args.length := by
      rw [List.length_zip, impl.Indexes_length, Nat.min_self]
    have hpar : ∀ (j : Nat) (A : ArgTy), p.Args[j]? = some A →
        ∃ a, as[j]? = some a ∧
          (impl.ArgumentExtractor vm args A
            (if leadingVM vm.VM p.Args = true then j else j + 1)).2 = Except.ok a := by
      intro j A hj
      have hjlt : j < p.Args.length := by
        by_contra hge
        rw [List.getElem?_eq_none_iff.mpr (Nat.le_of_not_lt hge)] at hj
        cases hj
      have hz : (p.Args.zip (impl.VMArgumentAnalyzer vm.VM p.Args))[j]? =
          some (A, if leadingVM vm.VM p.Args = true then j else j + 1) :=
        List.getElem?_zip_eq_some.mpr ⟨hj, impl.Indexes_getElem? vm.VM p.Args j hjlt⟩
      exact hall j _ hz
    refine ⟨object, receiver, as, h0, hc, ?_, by rw [hlen, hzlen], ?_, ?_⟩
    · rw [hev]
      have hni := filter_isInvoke_of_not_invoked (impl.extractAll_not_invoked vm args
        (p.Args.zip (impl.VMArgumentAnalyzer vm.VM p.Args)))
      simp [List.filter_cons, Event.isInvoke, hni]
    · intro hl
      constructor
      · have hA : ∃ rest, p.Args = ArgTy.ptr vm.VM :: rest := by
          unfold leadingVM at hl
          split at hl
          · next T rest heq =>
            have hT : T = vm.VM := by simpa using hl
            exact ⟨rest, by rw [heq, hT]⟩
          · cases hl
        obtain ⟨rest, hrest⟩ := hA
        obtain ⟨a, ha1, ha2⟩ := hpar 0 (ArgTy.ptr vm.VM) (by rw [hrest]; simp)
        rw [if_pos hl] at ha2
        have hvm : (impl.ArgumentExtractor vm args (ArgTy.ptr vm.VM) 0).2 =
            Except.ok Arg.vm := by
          simp [impl.ArgumentExtractor]
        rw [hvm] at ha2
        rw [ha1]
        exact congrArg some (Except.ok.inj ha2).symm
      · intro j A hj1 hj
        obtain ⟨a, ha1, ha2⟩ := hpar j A hj
        rw [if_pos hl] at ha2
        rcases impl.ArgumentExtractor_ok_spec vm args A j a ha2 with ⟨_, h0j, _⟩ | ⟨sv, hs, hcv⟩
        · omega
        · exact ⟨sv, a, hs, ha1, hcv⟩
    · intro hl
      have hl2 : ¬ leadingVM vm.VM p.Args = true := by rw [hl]; simp
      intro j A hj
      obtain ⟨a, ha1, ha2⟩ := hpar j A hj
      rw [if_neg hl2] at ha2
      rcases impl.ArgumentExtractor_ok_spec vm args A (j + 1) a ha2 with
        ⟨_, h0j, _⟩ | ⟨sv, hs, hcv⟩
      · omega
      · exact ⟨sv, a, hs, ha1, hcv⟩

/-- Witness for C16: a routine `(VM*, TInteger)` dispatched on a receiver of its class
and the tagged small integer 7: it is invoked once, with the engine handle and the
integer taken from slot 1. -/
theorem dispatch_arguments_witness :
    ((TNativeMethodPointer.mk 1 [ArgTy.ptr 0, ArgTy.integer] Fptr.void).operator sampleEngine
        [100, 7]).2 = Except.ok 2 ∧
    leadingVM sampleEngine.VM [ArgTy.ptr 0, ArgTy.integer] = true ∧
    impl.VMArgumentAnalyzer sampleEngine.VM [ArgTy.ptr 0, ArgTy.integer] = [0, 1] ∧
    ∃ receiver as,
      ((TNativeMethodPointer.mk 1 [ArgTy.ptr 0, ArgTy.integer] Fptr.void).operator
        sampleEngine [100, 7]).1.filter Event.isInvoke = [Event.invoke receiver as] ∧
      as.length = 2 ∧ as[0]? = some Arg.vm ∧
      ∃ slotValue a, ([100, 7] : List Word)[1]? = some slotValue ∧ as[1]? = some a ∧
        convertedFrom sampleEngine ArgTy.integer slotValue a :=
  ⟨rfl, rfl,
    (dispatch_arguments (TNativeMethodPointer.mk 1 [ArgTy.ptr 0, ArgTy.integer] Fptr.void)
      sampleEngine [100, 7]).1,
    let ⟨_, receiver, as, _, _, h3, h4, h5, _⟩ :=
      (dispatch_arguments (TNativeMethodPointer.mk 1 [ArgTy.ptr 0, ArgTy.integer] Fptr.void)
        sampleEngine [100, 7]).2.2.2.2 2 rfl
    ⟨receiver, as, h3, h4, (h5 rfl).1, (h5 rfl).2 1 ArgTy.integer (le_refl 1) rfl⟩⟩

/-! ## The shape of the root chain -/

theorem moveChain_shape {GC : Type} (c : Collector GC) (gc : GC) (es : List TStackEntry) :
    (moveChain c gc es).2.map (fun e => (e.next, e.map)) =
      es.map (fun e => (e.next, e.map)) := by
  induction es generalizing gc with
  | nil => rfl
  | cons e rest ih => simp [moveChain, ih]

theorem isChain_of_same_next (f g : Frames) (addrs : List Nat) (head : Nat)
    (h : ∀ a ∈ addrs, (f a).map (fun e => e.next) = (g a).map (fun e => e.next)) :
    isChain f head addrs = isChain g head addrs := by
  induction addrs generalizing head with
  | nil => rfl
  | cons a rest ih =>
    have ha := h a (List.mem_cons_self _ _)
    have hrest := fun x => ih x (fun b hb => h b (List.mem_cons_of_mem _ hb))
    simp only [isChain]
    cases hf : f a with
    | none =>
      rw [hf] at ha
      cases hg : g a with
      | none => rfl
      | some e2 => rw [hg] at ha; simp at ha
    | some e1 =>
      rw [hf] at ha
      cases hg : g a with
      | none => rw [hg] at ha; simp at ha
      | some e2 =>
        rw [hg] at ha
        simp only [Option.map_some', Option.some.injEq] at ha
        simp only [ha, hrest]

/-- C19: on a finite, acyclic chain of well-formed descriptors the walk completes and
leaves the structure of the chain as it was: the head `llvm_gc_root_chain` is the same,
the same addresses form the chain, and at every address the descriptor has the same
`next` link and the same frame map (so the same `numRoots`); only slot contents can
differ. -/
theorem chain_structure_preserved {GC : Type} (c : Collector GC) (fuel : Nat)
    (s : GCState GC) (addrs : List Nat)
    (hchain : isChain s.frames s.llvm_gc_root_chain addrs = true) (hnodup : addrs.Nodup)
    (hwf : wellFormed s.frames addrs) (hfuel : addrs.length < fuel) :
    ∃ s1, LLVMMemoryManager.moveObjects c fuel s = Outcome.done s1 ∧
      s1.llvm_gc_root_chain = s.llvm_gc_root_chain ∧
      isChain s1.frames s1.llvm_gc_root_chain addrs = true ∧
      ∀ a, (s1.frames a).map (fun e => (e.next, e.map)) =
        (s.frames a).map (fun e => (e.next, e.map)) := by
  obtain ⟨s1, hrun, _, hmap, hout, hhead⟩ :=
    LLVMMemoryManager.moveObjects_eq c fuel s addrs hchain hnodup hwf hfuel
  have hlist : addrs.map (fun a => (s1.frames a).map (fun e => (e.next, e.map))) =
      addrs.map (fun a => (s.frames a).map (fun e => (e.next, e.map))) := by
    have h1 : addrs.map (fun a => (s1.frames a).map (fun e => (e.next, e.map))) =
        (addrs.map s1.frames).map (Option.map (fun e => (e.next, e.map))) := by
      rw [List.map_map]; rfl
    have h2 : addrs.map (fun a => (s.frames a).map (fun e => (e.next, e.map))) =
        (addrs.map s.frames).map (Option.map (fun e => (e.next, e.map))) := by
      rw [List.map_map]; rfl
    rw [h1, h2, hmap, chain_entries s.frames addrs _ hchain, List.map_map, List.map_map]
    have h3 : ∀ l : List TStackEntry,
        l.map (Option.map (fun e => (e.next, e.map)) ∘ some) =
          (l.map (fun e => (e.next, e.map))).map some := by
      intro l
      rw [List.map_map]; rfl
    rw [h3, h3, moveChain_shape]
  have hsame : ∀ a, (s1.frames a).map (fun e => (e.next, e.map)) =
      (s.frames a).map (fun e => (e.next, e.map)) := by
    intro a
    by_cases ha : a ∈ addrs
    · exact List.map_inj_left.mp hlist a ha
    · rw [hout a ha]
  refine ⟨s1, hrun, hhead, ?_, hsame⟩
  rw [hhead, isChain_of_same_next s1.frames s.frames addrs _ ?_]
  · exact hchain
  · intro a _
    have := congrArg (Option.map Prod.fst) (hsame a)
    simpa [Option.map_map, Function.comp] using this

/-- Witness for C19: the two-frame sample chain, walked with the modelled collector. -/
theorem chain_structure_preserved_witness :
    (isChain sampleFrames 8 [8, 16] = true ∧ [8, 16].Nodup ∧
      wellFormed sampleFrames [8, 16] ∧ [8, 16].length < 3) ∧
    ∃ s1, LLVMMemoryManager.moveObjects Baker.collector 3
        { gc := Baker.sampleHeap, llvm_gc_root_chain := 8, frames := sampleFrames } =
          Outcome.done s1 ∧
      s1.llvm_gc_root_chain = 8 ∧
      isChain s1.frames s1.llvm_gc_root_chain [8, 16] = true ∧
      ∀ a, (s1.frames a).map (fun e => (e.next, e.map)) =
        (sampleFrames a).map (fun e => (e.next, e.map)) :=
  ⟨⟨by decide, by decide, sampleFrames_wellFormed, by decide⟩,
    chain_structure_preserved Baker.collector 3
      { gc := Baker.sampleHeap, llvm_gc_root_chain := 8, frames := sampleFrames } [8, 16]
      (by decide) (by decide) sampleFrames_wellFormed (by decide)⟩

/-! ## Symbol comparison -/

theorem TSymbol.less_nil_left (b : List Byte) :
    TSymbol.TCompareFunctor.operator { bytes := [] } { bytes := b } = !b.isEmpty := by
  cases b <;> rfl

theorem TSymbol.less_nil_right (a : List Byte) :
    TSymbol.TCompareFunctor.operator { bytes := a } { bytes := [] } = false := by
  cases a <;> rfl

theorem TSymbol.less_cons_cons (x y : Byte) (as bs : List Byte) :
    TSymbol.TCompareFunctor.operator { bytes := x :: as } { bytes := y :: bs } =
      if x.val < y.val then true
      else if y.val < x.val then false
      else TSymbol.TCompareFunctor.operator { bytes := as } { bytes := bs } := by
  simp only [TSymbol.TCompareFunctor.operator, List.map_cons, lexicographical_compare,
    uint8Value, Int.ofNat_lt]

theorem TSymbol.less_irrefl (a : List Byte) :
    TSymbol.TCompareFunctor.operator { bytes := a } { bytes := a } = false := by
  induction a with
  | nil => rfl
  | cons x as ih => rw [TSymbol.less_cons_cons, if_neg (lt_irrefl _), if_neg (lt_irrefl _), ih]

theorem TSymbol.less_trans (a b c : List Byte)
    (hab : TSymbol.TCompareFunctor.operator { bytes := a } { bytes := b } = true)
    (hbc : TSymbol.TCompareFunctor.operator { bytes := b } { bytes := c } = true) :
    TSymbol.TCompareFunctor.operator { bytes := a } { bytes := c } = true := by
  induction a generalizing b c with
  | nil =>
    cases c with
    | nil => rw [TSymbol.less_nil_right] at hbc; cases hbc
    | cons z cs => rfl
  | cons x as ih =>
    cases b with
    | nil => rw [TSymbol.less_nil_right] at hab; cases hab
    | cons y bs =>
      cases c with
      | nil => rw [TSymbol.less_nil_right] at hbc; cases hbc
      | cons z cs =>
        rw [TSymbol.less_cons_cons] at hab hbc ⊢
        by_cases hxy : x.val < y.val
        · by_cases hyz : y.val < z.val
          · rw [if_pos (lt_trans hxy hyz)]
          · rw [if_neg hyz] at hbc
            by_cases hzy : z.val < y.val
            · rw [if_pos hzy] at hbc; cases hbc
            · rw [if_pos (by omega)]
        · rw [if_neg hxy] at hab
          by_cases hyx : y.val < x.val
          · rw [if_pos hyx] at hab; cases hab
          · rw [if_neg hyx] at hab
            by_cases hyz : y.val < z.val
            · rw [if_pos (by omega)]
            · rw [if_neg hyz] at hbc
              by_cases hzy : z.val < y.val
              · rw [if_pos hzy] at hbc; cases hbc
              · rw [if_neg hzy] at hbc
                rw [if_neg (by omega), if_neg (by omega)]
                exact ih bs cs hab hbc

theorem TSymbol.less_total (a b : List Byte) (hne : a ≠ b) :
    TSymbol.TCompareFunctor.operator { bytes := a } { bytes := b } = true ∨
      TSymbol.TCompareFunctor.operator { bytes := b } { bytes := a } = true := by
  induction a generalizing b with
  | nil =>
    cases b with
    | nil => exact absurd rfl hne
    | cons y bs => left; rfl
  | cons x as ih =>
    cases b with
    | nil => right; rfl
    | cons y bs =>
      rw [TSymbol.less_cons_cons, TSymbol.less_cons_cons]
      by_cases hxy : x.val < y.val
      · left; rw [if_pos hxy]
      · by_cases hyx : y.val < x.val
        · right; rw [if_pos hyx]
        · have hxe : x = y := Fin.ext (by omega)
          subst hxe
          simp only [if_neg hxy]
          exact ih bs (fun h => hne (by rw [h]))

theorem TSymbol.less_of_extension (a t : List Byte) (ht : t ≠ []) :
    TSymbol.TCompareFunctor.operator { bytes := a } { bytes := a ++ t } = true := by
  induction a with
  | nil =>
    cases t with
    | nil => exact absurd rfl ht
    | cons y ts => rfl
  | cons x as ih =>
    rw [List.cons_append, TSymbol.less_cons_cons, if_neg (lt_irrefl _),
      if_neg (lt_irrefl _), ih]

theorem TSymbol.less_of_differ (common ta tb : List Byte) (x y : Byte)
    (hxy : x.val < y.val) :
    TSymbol.TCompareFunctor.operator { bytes := common ++ x :: ta }
      { bytes := common ++ y :: tb } = true := by
  induction common with
  | nil => rw [List.nil_append, List.nil_append, TSymbol.less_cons_cons, if_pos hxy]
  | cons c cs ih =>
    rw [List.cons_append, List.cons_append, TSymbol.less_cons_cons, if_neg (lt_irrefl _),
      if_neg (lt_irrefl _), ih]

theorem TSymbol.lexLess_of_less (a b : List Byte)
    (h : TSymbol.TCompareFunctor.operator { bytes := a } { bytes := b } = true) :
    lexLess a b := by
  induction a generalizing b with
  | nil =>
    cases b with
    | nil => cases h
    | cons y bs => exact Or.inl ⟨y :: bs, by simp, rfl⟩
  | cons x as ih =>
    cases b with
    | nil => rw [TSymbol.less_nil_right] at h; cases h
    | cons y bs =>
      rw [TSymbol.less_cons_cons] at h
      by_cases hxy : x.val < y.val
      · exact Or.inr ⟨[], x, y, as, bs, rfl, rfl, hxy⟩
      · rw [if_neg hxy] at h
        by_cases hyx : y.val < x.val
        · rw [if_pos hyx] at h; cases h
        · rw [if_neg hyx] at h
          have hxe : x = y := Fin.ext (by omega)
          subst hxe
          rcases ih bs h with ⟨t, ht, hb⟩ | ⟨common, u, v, ta, tb, ha, hb, huv⟩
          · exact Or.inl ⟨t, ht, by rw [hb]; rfl⟩
          · exact Or.inr ⟨x :: common, u, v, ta, tb, by rw [ha]; rfl, by rw [hb]; rfl, huv⟩

/-- C13: the symbol/symbol overload of `TCompareFunctor` holds exactly when the left
byte sequence is lexicographically less than the right one (bytes as unsigned numbers,
a proper prefix before its extension); it is irreflexive and transitive, and of
`less(a, b)`, `less(b, a)` and "`a` and `b` have identical bytes" exactly one holds. -/
theorem symbol_order (a b c : TSymbol) :
    (TSymbol.TCompareFunctor.operator a b = true ↔ lexLess a.bytes b.bytes) ∧
    TSymbol.TCompareFunctor.operator a a = false ∧
    (TSymbol.TCompareFunctor.operator a b = true →
      TSymbol.TCompareFunctor.operator b c = true →
      TSymbol.TCompareFunctor.operator a c = true) ∧
    (TSymbol.TCompareFunctor.operator a b = true ∨
      TSymbol.TCompareFunctor.operator b a = true ∨ a.bytes = b.bytes) ∧
    ¬ (TSymbol.TCompareFunctor.operator a b = true ∧
      TSymbol.TCompareFunctor.operator b a = true) ∧
    ¬ (TSymbol.TCompareFunctor.operator a b = true ∧ a.bytes = b.bytes) ∧
    ¬ (TSymbol.TCompareFunctor.operator b a = true ∧ a.bytes = b.bytes) := by
  obtain ⟨a⟩ := a
  obtain ⟨b⟩ := b
  obtain ⟨c⟩ := c
  simp only
  refine ⟨⟨TSymbol.lexLess_of_less a b, ?_⟩, TSymbol.less_irrefl a,
    TSymbol.less_trans a b c, ?_, ?_, ?_, ?_⟩
  · rintro (⟨t, ht, hb⟩ | ⟨common, x, y, ta, tb, ha, hb, hxy⟩)
    · rw [hb]
      exact TSymbol.less_of_extension a t ht
    · rw [ha, hb]
      exact TSymbol.less_of_differ common ta tb x y hxy
  · by_cases hab : a = b
    · exact Or.inr (Or.inr hab)
    · rcases TSymbol.less_total a b hab with h | h
      · exact Or.inl h
      · exact Or.inr (Or.inl h)
  · rintro ⟨h1, h2⟩
    have h3 := TSymbol.less_trans a b a h1 h2
    rw [TSymbol.less_irrefl] at h3
    cases h3
  · rintro ⟨h1, h2⟩
    rw [h2, TSymbol.less_irrefl] at h1
    cases h1
  · rintro ⟨h1, h2⟩
    rw [h2, TSymbol.less_irrefl] at h1
    cases h1

theorem charValue_of_ascii (b : Byte) (h : b.val < 128) : charValue b = uint8Value b := by
  unfold charValue uint8Value
  rw [if_pos h]

theorem TSymbol.mixed_agree_on_ascii (s : TSymbol) (c : List Byte) (n : Nat)
    (hn : strlen c = some n) (hascii : ∀ b ∈ c.take n, b.val < 128) :
    TSymbol.TCompareFunctor.operatorSymbolString s c =
        some (TSymbol.TCompareFunctor.operator s { bytes := c.take n }) ∧
      TSymbol.TCompareFunctor.operatorStringSymbol c s =
        some (TSymbol.TCompareFunctor.operator { bytes := c.take n } s) := by
  have hmap : (c.take n).map charValue = (c.take n).map uint8Value :=
    List.map_congr_left (fun b hb => charValue_of_ascii b (hascii b hb))
  simp only [TSymbol.TCompareFunctor.operatorSymbolString,
    TSymbol.TCompareFunctor.operatorStringSymbol, TSymbol.TCompareFunctor.operator, hn, hmap,
    and_self]

/-- C20 fails on the code: the mixed overloads compare the `uint8_t` bytes of the symbol
with the `char` elements of the string, and a `char` from 128 on is negative. For the
symbol and the C string that both consist of the byte `0xC3`, `less(c, s)` holds although
`less(sym(c), s)` does not; and for the symbol `a` and the string `0xC3`, `less(s, c)` does
not hold although `less(s, sym(c))` does. -/
theorem mixed_compare_differs :
    TSymbol.ofString [0xC3, 0] = some { bytes := [0xC3] } ∧
    TSymbol.TCompareFunctor.operatorStringSymbol [0xC3, 0] { bytes := [0xC3] } = some true ∧
    TSymbol.TCompareFunctor.operator { bytes := [0xC3] } { bytes := [0xC3] } = false ∧
    TSymbol.TCompareFunctor.operatorSymbolString { bytes := [0x61] } [0xC3, 0] = some false ∧
    TSymbol.TCompareFunctor.operator { bytes := [0x61] } { bytes := [0xC3] } = true := by
  refine ⟨by decide, by decide, by decide, by decide, by decide⟩

/-! ## Progress of the decode-dispatch loop -/

theorem decode_next (vm : SmalltalkVM) (byteCodes : List Byte) (p : Nat)
    (instruction : TInstruction) (next : Nat)
    (h : decode vm byteCodes p = some (instruction, next)) :
    (next = p + 1 ∨ next = p + 2) ∧ next ≤ byteCodes.length := by
  unfold decode at h
  cases h0 : byteCodes[p]? with
  | none => rw [h0] at h; cases h
  | some byte =>
    have hp : p < byteCodes.length := by
      by_contra hge
      rw [List.getElem?_eq_none_iff.mpr (Nat.le_of_not_lt hge)] at h0
      cases h0
    rw [h0] at h
    simp only at h
    split at h
    · cases h1 : byteCodes[p + 1]? with
      | none => rw [h1] at h; cases h
      | some operand =>
        have hp1 : p + 1 < byteCodes.length := by
          by_contra hge
          rw [List.getElem?_eq_none_iff.mpr (Nat.le_of_not_lt hge)] at h1
          cases h1
        rw [h1] at h
        simp only [Option.some.injEq, Prod.mk.injEq] at h
        exact ⟨Or.inr h.2.symm, by omega⟩
    · simp only [Option.some.injEq, Prod.mk.injEq] at h
      exact ⟨Or.inl h.2.symm, by omega⟩

theorem markArgumentsLoop_zero (fuel : Nat) (st : Compilation) :
    markArgumentsLoop (fuel + 1) 0 st = Outcome.done st := by
  rw [markArgumentsLoop, if_neg (Nat.lt_irrefl 0)]

theorem compileInstruction_progress (vm : SmalltalkVM) (fuel : Nat)
    (instruction : TInstruction) (st : Compilation) :
    (∀ st1, compileInstruction vm fuel instruction st = Outcome.done st1 →
      st1.bytePointer = st.bytePointer) ∧
    (compileInstruction vm fuel instruction st = Outcome.outOfFuel →
      instruction.high = vm.opMarkArguments ∧ (0 < instruction.low ∨ fuel = 0)) := by
  rw [compileInstruction]
  by_cases h1 : instruction.high = vm.opPushInstance
  · rw [if_pos h1]
    exact ⟨fun st1 h => by cases h; rfl, fun h => by cases h⟩
  rw [if_neg h1]
  by_cases h2 : instruction.high = vm.opPushArgument
  · rw [if_pos h2]
    exact ⟨fun st1 h => by cases h; rfl, fun h => by cases h⟩
  rw [if_neg h2]
  by_cases h3 : instruction.high = vm.opPushTemporary
  · rw [if_pos h3]
    exact ⟨fun st1 h => by cases h; rfl, fun h => by cases h⟩
  rw [if_neg h3]
  by_cases h4 : instruction.high = vm.opPushLiteral
  · rw [if_pos h4]
    exact ⟨fun st1 h => by cases h; rfl, fun h => by cases h⟩
  rw [if_neg h4]
  by_cases h5 : instruction.high = vm.opPushConstant
  · rw [if_pos h5]
    by_cases hk : instruction.low ≤ 9
    · rw [if_pos hk]
      exact ⟨fun st1 h => by cases h; rfl, fun h => by cases h⟩
    · rw [if_neg hk]
      exact ⟨fun st1 h => by cases h; rfl, fun h => by cases h⟩
  rw [if_neg h5]
  by_cases h6 : instruction.high = vm.opPushBlock
  · rw [if_pos h6]
    exact ⟨fun st1 h => (by cases h), fun h => by cases h⟩
  rw [if_neg h6]
  by_cases h7 : instruction.high = vm.opAssignTemporary
  · rw [if_pos h7]
    unfold Compilation.popValue TJITContext.popValue
    cases st.jitContext.valueStack with
    | nil => exact ⟨fun st1 h => (by cases h), fun h => by cases h⟩
    | cons v rest => exact ⟨fun st1 h => by cases h; rfl, fun h => by cases h⟩
  rw [if_neg h7]
  by_cases h8 : instruction.high = vm.opAssignInstance
  · rw [if_pos h8]
    unfold Compilation.popValue TJITContext.popValue
    cases st.jitContext.valueStack with
    | nil => exact ⟨fun st1 h => (by cases h), fun h => by cases h⟩
    | cons v rest => exact ⟨fun st1 h => by cases h; rfl, fun h => by cases h⟩
  rw [if_neg h8]
  by_cases h9 : instruction.high = vm.opMarkArguments
  · rw [if_pos h9]
    by_cases hlow : 0 < instruction.low
    · refine ⟨fun st1 h => ?_, fun _ => ⟨h9, Or.inl hlow⟩⟩
      cases hm : markArgumentsLoop fuel instruction.low st with
      | done st2 => exact absurd hm (markArgumentsLoop_not_done fuel _ st st2 hlow)
      | exited status => rw [hm] at h; cases h
      | undefined => rw [hm] at h; cases h
      | outOfFuel => rw [hm] at h; cases h
    · have h0 : instruction.low = 0 := by omega
      rw [h0]
      cases fuel with
      | zero => exact ⟨fun st1 h => (by cases h), fun _ => ⟨h9, Or.inr rfl⟩⟩
      | succ f =>
        rw [markArgumentsLoop_zero]
        exact ⟨fun st1 h => by cases h; rfl, fun h => by cases h⟩
  · rw [if_neg h9]
    exact ⟨fun st1 h => (by cases h), fun h => by cases h⟩

theorem compileLoop_outOfFuel (vm : SmalltalkVM) (byteCodes : List Byte) :
    ∀ (fuel : Nat) (st : Compilation), byteCodes.length - st.bytePointer < fuel →
      compileLoop vm byteCodes fuel st = Outcome.outOfFuel →
      ∃ p instruction next, decode vm byteCodes p = some (instruction, next) ∧
        instruction.high = vm.opMarkArguments ∧ 0 < instruction.low := by
  intro fuel
  induction fuel with
  | zero => intro st h; omega
  | succ f ih =>
    intro st hf h
    rw [compileLoop] at h
    by_cases hbp : st.bytePointer < byteCodes.length
    · rw [if_pos hbp] at h
      cases hd : decode vm byteCodes st.bytePointer with
      | none => rw [hd] at h; cases h
      | some x =>
        obtain ⟨instruction, next⟩ := x
        rw [hd] at h
        simp only at h
        obtain ⟨hnext, _⟩ := decode_next vm byteCodes _ instruction next hd
        obtain ⟨hdone, hout⟩ := compileInstruction_progress vm f instruction
          { st with bytePointer := next }
        cases hc : compileInstruction vm f instruction { st with bytePointer := next } with
        | done st1 =>
          rw [hc] at h
          simp only at h
          have hb : st1.bytePointer = next := hdone st1 hc
          exact ih st1 (by omega) h
        | exited status => rw [hc] at h; cases h
        | undefined => rw [hc] at h; cases h
        | outOfFuel =>
          obtain ⟨hmark, hlow⟩ := hout hc
          rcases hlow with hlow | hzero
          · exact ⟨st.bytePointer, instruction, next, hd, hmark, hlow⟩
          · omega
    · rw [if_neg hbp] at h
      cases h

end LLST
